import Mathlib

/-!
# Flattening of nested class definitions (`compiler/passes/flattenClasses.cpp`)

A shallow embedding of the pass `flattenClasses` and of its detector
`isInnerClass`.  The C++ heap is a set of arenas: a pointer is an index into
the arena of its pointee (`Option Nat`, `none` being `NULL`), and every
dereference of `NULL` or of an index outside its arena is a fault, written
`none` in the outermost `Option` of a result.
-/

namespace FlattenClasses

/-- Modelled from the spec: the declaration of `Expr`/`DefExpr` (`expr.h`) is not
part of the sources at hand.  An expression node carries its kind (is it a
`DefExpr`, a "definition" node), the symbol it defines (`DefExpr::sym`) and its
`parentSymbol`, the symbol owning the smallest enclosing named scope. -/
structure Expr where
  isDefExpr : Bool
  sym : Option Nat
  parentSymbol : Option Nat
deriving DecidableEq

/-- Modelled from the spec: the kinds of named entities that own a scope or are
defined by a definition node: module, type, function, variable or field. -/
inductive SymTag where
  | E_ModuleSymbol
  | E_TypeSymbol
  | E_FnSymbol
  | E_VarSymbol
deriving DecidableEq

/-- Modelled from the spec: the declaration of `Symbol` (`symbol.h`) is not part
of the sources at hand.  A symbol has a kind, a `type`, a `defPoint` (its
definition node); a `ModuleSymbol` owns a top-level `block`. -/
structure Symbol where
  astTag : SymTag
  type : Option Nat
  defPoint : Option Nat
  block : Option Nat
deriving DecidableEq

/-- The checked downcast `toModuleSymbol` as a test: is the symbol a Module? -/
def Symbol.isModule (sy : Symbol) : Bool :=
  match sy.astTag with
  | .E_ModuleSymbol => true
  | _ => false

/-- Modelled from the spec: the declaration of `Type`/`ClassType` (`type.h`) is
not part of the sources at hand (`Type` is reserved, hence the name).  A type
knows whether it is a `ClassType` (an aggregate type) and points back to its
type symbol. -/
structure TypeNode where
  isClassType : Bool
  symbol : Option Nat
deriving DecidableEq

/-- Modelled from the spec: a node of the whole-program enumeration is an
expression, a symbol or a type (`BaseAST` of `baseAST.h`, not part of the
sources at hand). -/
inductive BaseAST where
  | ofExpr (e : Nat)
  | ofSymbol (s : Nat)
  | ofType (t : Nat)
deriving DecidableEq

/-- The program state the pass reads and mutates: the three arenas, the
ordered statement sequence of every block, and the enumeration `gAsts`. -/
structure Program where
  exprs : List Expr
  syms : List Symbol
  types : List TypeNode
  blocks : List (List Nat)
  gAsts : List BaseAST
deriving DecidableEq

/-- Modelled from the spec: `toDefExpr` is a checked downcast (declared outside
the sources at hand): the node itself when it is a `DefExpr`, `NULL` otherwise.
Reading the kind of a dangling node is a fault. -/
def toDefExpr (p : Program) : BaseAST → Option (Option Nat)
  | .ofExpr e =>
    match p.exprs[e]? with
    | none => none
    | some x => if x.isDefExpr then some (some e) else some none
  | .ofSymbol _ => some none
  | .ofType _ => some none

/-- Modelled from the spec: `toClassType` is a checked downcast (declared outside
the sources at hand): `NULL` for `NULL`, the type itself when it is a
`ClassType`, `NULL` otherwise. -/
def toClassType (p : Program) : Option Nat → Option (Option Nat)
  | none => some none
  | some t =>
    match p.types[t]? with
    | none => none
    | some ty => if ty.isClassType then some (some t) else some none

/-- The definition point `ct->symbol->defPoint` of a type; `none` when one of
the pointers followed is `NULL` or the definition point itself is. -/
def defPointOf (p : Program) (ct : Nat) : Option Nat :=
  match p.types[ct]? with
  | none => none
  | some ty =>
    match ty.symbol with
    | none => none
    | some s =>
      match p.syms[s]? with
      | none => none
      | some sy => sy.defPoint

/-- The pointer `def->sym->type` of a definition node (line 12). -/
def defSymType (p : Program) (d : Nat) : Option (Option Nat) :=
  match p.exprs[d]? with
  | none => none
  | some dx =>
    match dx.sym with
    | none => none
    | some s =>
      match p.syms[s]? with
      | none => none
      | some sy => some sy.type

/-- The value given to `outer` (lines 13-14):
`toClassType(ct->symbol->defPoint->parentSymbol->type)`. -/
def outerOf (p : Program) (ct : Nat) : Option (Option Nat) :=
  match defPointOf p ct with
  | none => none
  | some cd =>
    match p.exprs[cd]? with
    | none => none
    | some cdx =>
      match cdx.parentSymbol with
      | none => none
      | some ps =>
        match p.syms[ps]? with
        | none => none
        | some psy => toClassType p psy.type

/-- The detector `isInnerClass` (flattenClasses.cpp, lines 8-22).  The outer
`Option` is `none` when the C++ dereferences `NULL`; the inner one is the
returned `ClassType*`. -/
def isInnerClass (p : Program) (ast : BaseAST) : Option (Option Nat) :=
  match toDefExpr p ast with
  | none => none
  | some none => some none                    -- not a DefExpr: inner stays NULL
  | some (some d) =>
    match defSymType p d with
    | none => none
    | some t =>
      match toClassType p t with
      | none => none
      | some none => some none                -- not a ClassType: inner stays NULL
      | some (some ct) =>
        match outerOf p ct with
        | none => none
        | some none => some none              -- outer == NULL: inner stays NULL
        | some (some _) => some (some ct)     -- outer != NULL: inner = ct

/-- Modelled from the spec: `Vec::add_exclusive` (declared outside the sources at
hand): adding an element already present is a no-op, a new element goes last. -/
def add_exclusive (v : List Nat) (x : Nat) : List Nat :=
  if x ∈ v then v else v ++ [x]

/-- The scan loop of `flattenClasses` (lines 26-31): the accumulator is
`all_nested_classes`. -/
def scan (p : Program) : List BaseAST → List Nat → Option (List Nat)
  | [], acc => some acc
  | ast :: rest, acc =>
    match isInnerClass p ast with
    | none => none
    | some none => scan p rest acc
    | some (some inner) => scan p rest (add_exclusive acc inner)

/-- The vector `all_nested_classes` after the scan over `gAsts`. -/
def all_nested_classes (p : Program) : Option (List Nat) :=
  scan p p.gAsts []

/-- Modelled from the spec: the walk of `getModule` over symbols (declared outside
the sources at hand): a Module is its own module, any other symbol has the
module of the parent symbol of its definition point.  The fuel bounds the
number of symbols visited; `none` is a `NULL` or dangling pointer on the
chain, or a chain that reaches no Module within the fuel. -/
def getModuleSym (p : Program) : Nat → Option Nat → Option Nat
  | 0, _ => none
  | _ + 1, none => none
  | fuel + 1, some s =>
    match p.syms[s]? with
    | none => none
    | some sy =>
      if sy.isModule then some s
      else
        match sy.defPoint with
        | none => none
        | some d =>
          match p.exprs[d]? with
          | none => none
          | some dx => getModuleSym p fuel dx.parentSymbol

/-- Modelled from the spec: `ct->getModule()` (declared outside the sources at
hand) walks the chain of enclosing parent symbols, starting at the defining
scope of the type's symbol, until a Module is reached.  A chain without a
cycle visits at most `syms.length` symbols. -/
def getModule (p : Program) (ct : Nat) : Option Nat :=
  match defPointOf p ct with
  | none => none
  | some d =>
    match p.exprs[d]? with
    | none => none
    | some dx => getModuleSym p (p.syms.length + 1) dx.parentSymbol

/-- Modelled from the spec: `Expr::remove` (declared outside the sources at hand)
detaches a node from the block holding it; the remaining siblings stay
contiguous and in their order.  A node occupies at most one position of the
tree, so detaching it deletes its occurrence from every sequence. -/
def remove (p : Program) (d : Nat) : Program :=
  { p with blocks := p.blocks.map (fun body => body.filter (fun x => decide (x ≠ d))) }

/-- Modelled from the spec: `BlockStmt::insertAtTail` (declared outside the
sources at hand) appends the node as the new last element of block `b`; the
node's parent symbol becomes `owner`, the symbol owning the block. -/
def insertAtTail (p : Program) (b owner d : Nat) : Option Program :=
  match p.blocks[b]?, p.exprs[d]? with
  | some body, some dx =>
    some { p with
      blocks := p.blocks.set b (body ++ [d])
      exprs := p.exprs.set d { dx with parentSymbol := some owner } }
  | _, _ => none

/-- The body of the relocation loop of `flattenClasses` (lines 35-38). -/
def moveToModule (p : Program) (ct : Nat) : Option Program :=
  match getModule p ct with                   -- mod = ct->getModule()
  | none => none
  | some mod =>
    match defPointOf p ct with                -- def = ct->symbol->defPoint
    | none => none
    | some d =>
      match p.syms[mod]? with
      | none => none
      | some msy =>
        match msy.block with
        | none => none
        | some b => insertAtTail (remove p d) b mod d   -- def->remove(); mod->block->insertAtTail(def)

/-- The relocation loop of `flattenClasses` (lines 34-39). -/
def relocateAll (p : Program) : List Nat → Option Program
  | [] => some p
  | ct :: rest =>
    match moveToModule p ct with
    | none => none
    | some q => relocateAll q rest

/-- The pass `flattenClasses` (lines 24-40): scan, then relocate. -/
def flattenClasses (p : Program) : Option Program :=
  match all_nested_classes p with
  | none => none
  | some cs => relocateAll p cs

/-! ## Well-formedness of the input tree -/

/-- The parent symbol of a node, when the node is an expression that has one. -/
def parentSymbolOf (p : Program) (d : Nat) : Option Nat :=
  match p.exprs[d]? with
  | none => none
  | some dx => dx.parentSymbol

/-- Every pointer the relocation of `ct` follows resolves: the parent chain of
its definition reaches a Module, and that Module has a top-level block. -/
def resolvable (p : Program) (ct : Nat) : Bool :=
  match getModule p ct with
  | none => false
  | some m =>
    match p.syms[m]? with
    | none => false
    | some msy =>
      match msy.block with
      | none => false
      | some b => decide (b < p.blocks.length)

/-- A definition node has a backing symbol. -/
def defHasSym (p : Program) (dx : Expr) : Bool :=
  !dx.isDefExpr ||
    match dx.sym with
    | none => false
    | some s => decide (s < p.syms.length)

/-- The type pointer of a symbol is `NULL` or points into the arena. -/
def typePtrOk (p : Program) (sy : Symbol) : Bool :=
  match sy.type with
  | none => true
  | some t => decide (t < p.types.length)

/-- A Module is not a type: its `type` is not an aggregate type. -/
def moduleNotClass (p : Program) (sy : Symbol) : Bool :=
  !sy.isModule || decide (toClassType p sy.type = some none)

/-- An enumerated node lies in its arena. -/
def nodeOk (p : Program) : BaseAST → Bool
  | .ofExpr e => decide (e < p.exprs.length)
  | .ofSymbol _ => true
  | .ofType _ => true

/-- The aggregate type `ct` satisfies `resolvable` (any other type passes). -/
def classOk (p : Program) (ct : Nat) : Bool :=
  match p.types[ct]? with
  | none => true
  | some ty => !ty.isClassType || resolvable p ct

/-- Well-formed tree: every definition has a backing symbol, no pointer
dangles, the parent chain of every aggregate type reaches a Module that has a
block, and a Module is not an aggregate type. -/
def wellFormed (p : Program) : Bool :=
  p.exprs.all (defHasSym p) &&
  p.syms.all (fun sy => typePtrOk p sy && moduleNotClass p sy) &&
  (List.range p.types.length).all (classOk p) &&
  p.gAsts.all (nodeOk p)

/-- The aggregate type `ct` and its definition are mutually linked and the
definition is enumerated: the definition point of `ct`'s symbol is an enumerated
definition node of that symbol, whose type is `ct`. -/
def linkedAt (p : Program) (ct : Nat) : Bool :=
  match p.types[ct]? with
  | none => true
  | some ty =>
    !ty.isClassType ||
      match ty.symbol with
      | none => false
      | some s =>
        match p.syms[s]? with
        | none => false
        | some sy =>
          decide (sy.type = some ct) &&
            match sy.defPoint with
            | none => false
            | some d =>
              match p.exprs[d]? with
              | none => false
              | some dx => dx.isDefExpr && decide (dx.sym = some s) && decide (BaseAST.ofExpr d ∈ p.gAsts)

/-- Type symbols and type definitions are one-to-one and mutual, and the
enumeration visits every type definition. -/
def linked (p : Program) : Bool :=
  (List.range p.types.length).all (linkedAt p)

/-- The block of Module `m` is that of no other Module, and the statements
of that block have `m` as parent symbol. -/
def ownsTopLevel (p : Program) (m : Nat) : Bool :=
  match p.syms[m]? with
  | none => true
  | some msy =>
    !msy.isModule ||
      match msy.block with
      | none => true
      | some b =>
        (match p.blocks[b]? with
          | none => true
          | some body => body.all (fun x => decide (parentSymbolOf p x = some m))) &&
        (List.range p.syms.length).all (fun m2 =>
          match p.syms[m2]? with
          | none => true
          | some sy2 => !sy2.isModule || decide (sy2.block = some b → m2 = m))

/-- Every Module owns its top-level block: the statements of the block have the
Module as parent symbol and no two Modules share a block. -/
def topLevelOwned (p : Program) : Bool :=
  (List.range p.syms.length).all (ownsTopLevel p)

/-! ## Specification-side notions -/

/-- The sequence of symbols the detector returns over an enumeration, in
enumeration order (a `NULL` result contributes nothing). -/
def detected (p : Program) (asts : List BaseAST) : List Nat :=
  asts.filterMap (fun a => (isInnerClass p a).join)

/-- An ordered set in first-encountered order, in the words of the spec: each
element is kept at its first occurrence and dropped at every later one. -/
def firstOccurrences : List Nat → List Nat
  | [] => []
  | x :: l => x :: (firstOccurrences l).filter (fun y => decide (y ≠ x))

/-- The kind of the symbol a definition node defines. -/
def defSymTag (p : Program) (d : Nat) : Option SymTag :=
  match p.exprs[d]? with
  | none => none
  | some dx =>
    match dx.sym with
    | none => none
    | some s =>
      match p.syms[s]? with
      | none => none
      | some sy => some sy.astTag

/-- A Type Definition: a definition node whose symbol is a type symbol. -/
def isTypeDefinition (p : Program) : BaseAST → Bool
  | .ofExpr d => decide (toDefExpr p (.ofExpr d) = some (some d)) && decide (defSymTag p d = some .E_TypeSymbol)
  | .ofSymbol _ => false
  | .ofType _ => false

/-- The number of positions of the tree (over all blocks) that hold node `x`. -/
def occurrences (bs : List (List Nat)) (x : Nat) : Nat :=
  (bs.map (fun body => body.count x)).sum

/-- The kind and the symbol of node `d`: what identifies a definition node. -/
def nodeInfo (p : Program) (d : Nat) : Option (Bool × Option Nat) :=
  match p.exprs[d]? with
  | none => none
  | some x => some (x.isDefExpr, x.sym)

/-! ## Example trees -/

/-- Module `M` with `class A { class B { class C {} }; var x: int; }`.
Symbols: 0 `M`, 1 `A`, 2 `B`, 3 `C`, 4 `x`.  Types: 0 `A`, 1 `B`, 2 `C`, 3 `int`.
Nodes: 0..2 the definitions of `A`, `B`, `C`, 3 the definition of `x`.
Blocks: 0 the top level of `M`, 1 the body of `A`, 2 the body of `B`. -/
def exNested : Program where
  syms := [⟨.E_ModuleSymbol, none, none, some 0⟩, ⟨.E_TypeSymbol, some 0, some 0, none⟩,
           ⟨.E_TypeSymbol, some 1, some 1, none⟩, ⟨.E_TypeSymbol, some 2, some 2, none⟩,
           ⟨.E_VarSymbol, some 3, some 3, none⟩]
  types := [⟨true, some 1⟩, ⟨true, some 2⟩, ⟨true, some 3⟩, ⟨false, none⟩]
  exprs := [⟨true, some 1, some 0⟩, ⟨true, some 2, some 1⟩, ⟨true, some 3, some 2⟩,
            ⟨true, some 4, some 1⟩]
  blocks := [[0], [1, 3], [2]]
  gAsts := [.ofSymbol 0, .ofExpr 0, .ofExpr 1, .ofExpr 2, .ofExpr 3, .ofType 0]

/-- The tree `exNested` with the field `x` of `A` declared of type `C`, its
definition enumerated before the definitions of `B` and of `C`. -/
def exFieldFirst : Program where
  syms := [⟨.E_ModuleSymbol, none, none, some 0⟩, ⟨.E_TypeSymbol, some 0, some 0, none⟩,
           ⟨.E_TypeSymbol, some 1, some 1, none⟩, ⟨.E_TypeSymbol, some 2, some 2, none⟩,
           ⟨.E_VarSymbol, some 2, some 3, none⟩]
  types := [⟨true, some 1⟩, ⟨true, some 2⟩, ⟨true, some 3⟩, ⟨false, none⟩]
  exprs := [⟨true, some 1, some 0⟩, ⟨true, some 2, some 1⟩, ⟨true, some 3, some 2⟩,
            ⟨true, some 4, some 1⟩]
  blocks := [[0], [1, 3], [2]]
  gAsts := [.ofSymbol 0, .ofExpr 0, .ofExpr 3, .ofExpr 1, .ofExpr 2]

/-- Module `M` with `class A { class B {}; var x: B; var y: B; }`: the inner
type `B` is met three times, at its definition (node 1) and at the two fields
(nodes 2 and 3).  Symbols: 0 `M`, 1 `A`, 2 `B`, 3 `x`, 4 `y`. -/
def exRefs : Program where
  syms := [⟨.E_ModuleSymbol, none, none, some 0⟩, ⟨.E_TypeSymbol, some 0, some 0, none⟩,
           ⟨.E_TypeSymbol, some 1, some 1, none⟩, ⟨.E_VarSymbol, some 1, some 2, none⟩,
           ⟨.E_VarSymbol, some 1, some 3, none⟩]
  types := [⟨true, some 1⟩, ⟨true, some 2⟩]
  exprs := [⟨true, some 1, some 0⟩, ⟨true, some 2, some 1⟩, ⟨true, some 3, some 1⟩,
            ⟨true, some 4, some 1⟩]
  blocks := [[0], [1, 2, 3], []]
  gAsts := [.ofExpr 0, .ofExpr 2, .ofExpr 1, .ofExpr 3]

/-- Module `M` with a single top-level `class A {}`: nothing is nested. -/
def exFlat : Program where
  syms := [⟨.E_ModuleSymbol, none, none, some 0⟩, ⟨.E_TypeSymbol, some 0, some 0, none⟩]
  types := [⟨true, some 1⟩]
  exprs := [⟨true, some 1, some 0⟩]
  blocks := [[0], []]
  gAsts := [.ofSymbol 0, .ofExpr 0, .ofType 0]

/-- A malformed tree: the definition (node 0) of `class A` has no parent symbol. -/
def exOrphan : Program where
  syms := [⟨.E_TypeSymbol, some 0, some 0, none⟩]
  types := [⟨true, some 0⟩]
  exprs := [⟨true, some 0, none⟩]
  blocks := [[]]
  gAsts := [.ofExpr 0]

/-- Module `M` with `proc f() { class L {} }`: the type `L` is local to a function.
Symbols: 0 `M`, 1 `f`, 2 `L`.  Nodes: 0 the definition of `f`, 1 that of `L`.
Blocks: 0 the top level of `M`, 1 the body of `f`. -/
def exLocal : Program where
  syms := [⟨.E_ModuleSymbol, none, none, some 0⟩, ⟨.E_FnSymbol, none, some 0, none⟩,
           ⟨.E_TypeSymbol, some 0, some 1, none⟩]
  types := [⟨true, some 2⟩]
  exprs := [⟨true, some 1, some 0⟩, ⟨true, some 2, some 1⟩]
  blocks := [[0], [1]]
  gAsts := [.ofSymbol 0, .ofExpr 0, .ofExpr 1, .ofType 0]

/-! ## The relocation, seen from the original tree -/

/-- The effect on the blocks of `def->remove()` followed by
`block->insertAtTail(def)` for the block `b` and the node `d`. -/
def moveBlocks (bs : List (List Nat)) (b d : Nat) : List (List Nat) :=
  match (bs.map (fun body => body.filter (fun x => decide (x ≠ d))))[b]? with
  | none => bs.map (fun body => body.filter (fun x => decide (x ≠ d)))
  | some body => (bs.map (fun body => body.filter (fun x => decide (x ≠ d)))).set b (body ++ [d])

/-- The top-level block `ct->getModule()->block` a type is relocated to. -/
def blockOf (p : Program) (ct : Nat) : Option Nat :=
  match getModule p ct with
  | none => none
  | some m =>
    match p.syms[m]? with
    | none => none
    | some msy => msy.block

/-- The relocation of one collected type, read in the original tree: the
target block and the definition node moved there. -/
def moveOf (p : Program) (ct : Nat) : Option (Nat × Nat) :=
  match blockOf p ct, defPointOf p ct with
  | some b, some d => some (b, d)
  | _, _ => none

/-- The blocks after a sequence of relocations `(block, node)`. -/
def applyMoves (bs : List (List Nat)) : List (Nat × Nat) → List (List Nat)
  | [] => bs
  | (b, d) :: rest => applyMoves (moveBlocks bs b d) rest

/-- The state `q` is the tree `p` after some relocations: symbols, types and
the enumeration are those of `p`, and a node differs from the node of `p` at
most in its parent symbol, which is then the Module that the parent chain of
the node reaches in `p`. -/
structure Evolves (p q : Program) : Prop where
  syms : q.syms = p.syms
  types : q.types = p.types
  gAsts : q.gAsts = p.gAsts
  nblocks : q.blocks.length = p.blocks.length
  nexprs : q.exprs.length = p.exprs.length
  expr : ∀ (d : Nat) (dx : Expr), p.exprs[d]? = some dx → ∃ dy : Expr, q.exprs[d]? = some dy ∧
    dy.isDefExpr = dx.isDefExpr ∧ dy.sym = dx.sym ∧
    (dy.parentSymbol = dx.parentSymbol ∨
      ∃ m, dy.parentSymbol = some m ∧
        getModuleSym p (p.syms.length + 1) dx.parentSymbol = some m)

/-- The definition of the type `ct` of `p` sits, in `q`, under the Module that
owns `ct` in `p`. -/
def PlacedAt (p q : Program) (ct : Nat) : Prop :=
  ∃ d m, defPointOf p ct = some d ∧ getModule p ct = some m ∧ parentSymbolOf q d = some m

/-- Node `x` occupies a position of block `i` and of no other block. -/
def OnlyIn (bs : List (List Nat)) (x i : Nat) : Prop :=
  (∃ body, bs[i]? = some body ∧ x ∈ body) ∧
    ∀ j body, bs[j]? = some body → x ∈ body → j = i

/-! ## The detector alone: what it needs of a tree -/

/-- The chain `ct->symbol->defPoint->parentSymbol` of an aggregate type
resolves: the type has a symbol, the symbol a definition point, the definition
point a parent symbol (any other type passes). -/
def classHasParent (p : Program) (ct : Nat) : Bool :=
  match p.types[ct]? with
  | none => true
  | some ty =>
    !ty.isClassType ||
      match defPointOf p ct with
      | none => false
      | some d =>
        match parentSymbolOf p d with
        | none => false
        | some ps => decide (ps < p.syms.length)

/-- Well-formed for the detector: every definition node has a symbol, no type
pointer dangles, and the symbol of every aggregate type has a definition point
that has a parent symbol. -/
def detectorOk (p : Program) : Bool :=
  p.exprs.all (defHasSym p) && p.syms.all (typePtrOk p) &&
  (List.range p.types.length).all (classHasParent p)

/-- The tree `p` with node `d` placed elsewhere: its parent symbol is `ps` and
the blocks are `bs`. -/
def placedElsewhere (p : Program) (d : Nat) (ps : Option Nat) (bs : List (List Nat)) : Program :=
  match p.exprs[d]? with
  | none => { p with blocks := bs }
  | some dx => { p with blocks := bs, exprs := p.exprs.set d { dx with parentSymbol := ps } }

/-! ## The host program (`use_reliesOnGlobal-library-init.test.c`) -/

/-- The external functions the host program calls, with their arguments: the
two entry points of the runtime and the two functions the library exports. -/
inductive ExternCall where
  | chpl_library_init (argc : Int) (argv : List String)
  | chpl__init_reliesOnGlobal (a b : Int)
  | whatIsGlobal
  | chpl_library_finalize
deriving DecidableEq

/-- Is the call one to a function exported by the library? -/
def ExternCall.isExported : ExternCall → Bool
  | .chpl__init_reliesOnGlobal _ _ => true
  | .whatIsGlobal => true
  | _ => false

/-- Is the call the initialization entry point? -/
def ExternCall.isInit : ExternCall → Bool
  | .chpl_library_init _ _ => true
  | _ => false

/-- Is the call the finalization entry point? -/
def ExternCall.isFinalize : ExternCall → Bool
  | .chpl_library_finalize => true
  | _ => false

/-- An external call, as the host sees it: it is recorded, in order, in the log
of the calls made so far. -/
def Host.call (c : ExternCall) (log : List ExternCall) : List ExternCall :=
  log ++ [c]

/-- The function `main` of the host program (lines 7-20): the log of external
calls after it ran, and its return value. -/
def Host.main (argc : Int) (argv : List String) (log : List ExternCall) :
    List ExternCall × Int :=
  let log1 := Host.call (.chpl_library_init argc argv) log     -- chpl_library_init(argc, argv);
  let log2 := Host.call (.chpl__init_reliesOnGlobal 1 2) log1  -- chpl__init_reliesOnGlobal(1, 2);
  let log3 := Host.call .whatIsGlobal log2                     -- whatIsGlobal();
  let log4 := Host.call .chpl_library_finalize log3            -- chpl_library_finalize();
  (log4, 0)                                                    -- return 0;

/-! ## Ownership -/

/-- The Module that owns node `x`: the one the chain of parent symbols of `x`
reaches. -/
def ownerOf (p : Program) (x : Nat) : Option Nat :=
  getModuleSym p (p.syms.length + 1) (parentSymbolOf p x)

/-- Block `i` is the top-level block of no Module. -/
def notModuleBlock (p : Program) (i : Nat) : Bool :=
  p.syms.all (fun sy => !sy.isModule || decide (sy.block ≠ some i))

/-- Three Modules: `M1` with `class A { class B {} }`, `M2` with
`class P { class Q {} }`, `M3` with `class R {}`.  Symbols: 0..2 the Modules,
3 `A`, 4 `B`, 5 `P`, 6 `Q`, 7 `R`.  Types and definition nodes: 0 `A`, 1 `B`, 2 `P`,
3 `Q`, 4 `R`.  Blocks: 0..2 the top levels of the Modules, 3 the body of `A`,
4 that of `P`, 5 that of `R`.  The definition of `Q` is enumerated before that
of `B`. -/
def exModules : Program where
  syms := [⟨.E_ModuleSymbol, none, none, some 0⟩, ⟨.E_ModuleSymbol, none, none, some 1⟩,
           ⟨.E_ModuleSymbol, none, none, some 2⟩, ⟨.E_TypeSymbol, some 0, some 0, none⟩,
           ⟨.E_TypeSymbol, some 1, some 1, none⟩, ⟨.E_TypeSymbol, some 2, some 2, none⟩,
           ⟨.E_TypeSymbol, some 3, some 3, none⟩, ⟨.E_TypeSymbol, some 4, some 4, none⟩]
  types := [⟨true, some 3⟩, ⟨true, some 4⟩, ⟨true, some 5⟩, ⟨true, some 6⟩, ⟨true, some 7⟩]
  exprs := [⟨true, some 3, some 0⟩, ⟨true, some 4, some 3⟩, ⟨true, some 5, some 1⟩,
            ⟨true, some 6, some 5⟩, ⟨true, some 7, some 2⟩]
  blocks := [[0], [2], [4], [1], [3], []]
  gAsts := [.ofExpr 0, .ofExpr 3, .ofExpr 1, .ofExpr 2, .ofExpr 4]

/-! ## Reaching a Module -/

/-- The parent chain of symbol `s` reaches a Module: the walk returns one, given
enough steps. -/
def ReachesModule (p : Program) (s : Nat) : Prop :=
  ∃ n m, getModuleSym p n (some s) = some m

/-- Every symbol's parent chain reaches a Module. -/
def AllReach (p : Program) : Prop :=
  ∀ s sy, p.syms[s]? = some sy → ReachesModule p s

/-- The test of `AllReach` by the walk of `getModule`, with its bound on the
number of symbols visited. -/
def allReach (p : Program) : Bool :=
  (List.range p.syms.length).all
    (fun s => (getModuleSym p (p.syms.length + 1) (some s)).isSome)

/-- The walk from `s` returns `m` with `k` steps and with no fewer. -/
def MinFuel (p : Program) (k : Nat) (s : Option Nat) (m : Nat) : Prop :=
  getModuleSym p k s = some m ∧ ∀ j, j < k → getModuleSym p j s = none

/-- The definition point of the type `ct` has a parent symbol, in the arena. -/
def HasParent (p : Program) (ct : Nat) : Prop :=
  ∃ d ps psy, defPointOf p ct = some d ∧ parentSymbolOf p d = some ps ∧
    p.syms[ps]? = some psy

/-! ## The detector -/

theorem toClassType_some_some {p : Program} {t : Option Nat} {ct : Nat}
    (h : toClassType p t = some (some ct)) :
    t = some ct ∧ ∃ ty, p.types[ct]? = some ty ∧ ty.isClassType = true := by
  unfold toClassType at h
  split at h
  · simp at h
  · split at h
    · simp at h
    · split at h
      · simp only [Option.some.injEq] at h
        subst h
        exact ⟨rfl, _, by assumption, by assumption⟩
      · simp at h

theorem toDefExpr_some_some {p : Program} {a : BaseAST} {d : Nat}
    (h : toDefExpr p a = some (some d)) :
    a = .ofExpr d ∧ ∃ dx, p.exprs[d]? = some dx ∧ dx.isDefExpr = true := by
  unfold toDefExpr at h
  split at h
  · split at h
    · simp at h
    · split at h
      · simp only [Option.some.injEq] at h
        subst h
        exact ⟨rfl, _, by assumption, by assumption⟩
      · simp at h
  · simp at h
  · simp at h

/-- The detector returns `ct` exactly on a definition node whose symbol has the
aggregate type `ct` and `outer`, computed from `ct` alone, is not `NULL`. -/
theorem isInnerClass_eq_some_iff (p : Program) (a : BaseAST) (ct : Nat) :
    isInnerClass p a = some (some ct) ↔
      ∃ d, toDefExpr p a = some (some d) ∧ defSymType p d = some (some ct) ∧
        toClassType p (some ct) = some (some ct) ∧ ∃ o, outerOf p ct = some (some o) := by
  constructor
  · intro h
    unfold isInnerClass at h
    split at h
    · simp at h
    · simp at h
    · rename_i d hd
      split at h
      · simp at h
      · rename_i t ht
        split at h
        · simp at h
        · simp at h
        · rename_i c hc
          split at h
          · simp at h
          · simp at h
          · rename_i o ho
            simp only [Option.some.injEq] at h
            subst h
            obtain ⟨rfl, hty⟩ := toClassType_some_some hc
            exact ⟨d, hd, ht, hc, o, ho⟩
  · rintro ⟨d, hd, ht, hc, o, ho⟩
    simp [isInnerClass, hd, ht, hc, ho]

/-! ## The scan -/

theorem mem_add_exclusive {v : List Nat} {x y : Nat} :
    y ∈ add_exclusive v x ↔ y ∈ v ∨ y = x := by
  unfold add_exclusive
  split
  · constructor
    · exact Or.inl
    · rintro (h | rfl)
      · exact h
      · assumption
  · simp

theorem scan_eq_foldl (p : Program) (asts : List BaseAST) :
    ∀ (acc cs : List Nat), scan p asts acc = some cs →
      cs = (detected p asts).foldl add_exclusive acc := by
  induction asts with
  | nil =>
    intro acc cs h
    simp [scan] at h
    simp [detected, h]
  | cons a rest ih =>
    intro acc cs h
    unfold scan at h
    split at h
    · simp at h
    · rename_i hr
      have := ih acc cs h
      simpa [detected, hr] using this
    · rename_i inner hr
      have := ih _ cs h
      simpa [detected, hr] using this

theorem foldl_add_exclusive (l : List Nat) :
    ∀ acc : List Nat, l.foldl add_exclusive acc =
      acc ++ (firstOccurrences l).filter (fun y => decide (y ∉ acc)) := by
  induction l with
  | nil => intro acc; simp [firstOccurrences]
  | cons x l ih =>
    intro acc
    simp only [List.foldl_cons, ih, firstOccurrences]
    by_cases hx : x ∈ acc
    · simp only [add_exclusive, hx, if_true, List.filter_cons, not_true_eq_false, decide_False,
        Bool.false_eq_true, if_false, List.filter_filter]
      congr 1
      apply List.filter_congr
      intro y _
      by_cases hy : y ∈ acc
      · simp [hy]
      · have : y ≠ x := fun e => hy (e ▸ hx)
        simp [hy, this]
    · simp only [add_exclusive, hx, if_false, List.filter_cons, not_false_eq_true, decide_True,
        if_true, List.filter_filter, List.append_assoc, List.singleton_append]
      congr 2
      apply List.filter_congr
      intro y _
      by_cases hy : y ∈ acc <;> by_cases hyx : y = x <;> simp [hy, hyx]

theorem mem_firstOccurrences {l : List Nat} {y : Nat} : y ∈ firstOccurrences l ↔ y ∈ l := by
  induction l with
  | nil => simp [firstOccurrences]
  | cons x l ih =>
    simp only [firstOccurrences, List.mem_cons, List.mem_filter, ih, decide_eq_true_eq]
    by_cases h : y = x <;> simp [h]

theorem nodup_firstOccurrences (l : List Nat) : (firstOccurrences l).Nodup := by
  induction l with
  | nil => simp [firstOccurrences]
  | cons x l ih =>
    simp only [firstOccurrences, List.nodup_cons, List.mem_filter, decide_eq_true_eq]
    exact ⟨fun h => h.2 rfl, ih.filter _⟩

theorem pairwise_firstOccurrences (l : List Nat) :
    (firstOccurrences l).Pairwise (fun x y => List.indexOf x l < List.indexOf y l) := by
  induction l with
  | nil => simp [firstOccurrences]
  | cons x l ih =>
    simp only [firstOccurrences, List.pairwise_cons, List.mem_filter, decide_eq_true_eq]
    refine ⟨?_, ?_⟩
    · rintro y ⟨_, hy⟩
      rw [List.indexOf_cons_self, List.indexOf_cons_ne _ (Ne.symm hy)]
      exact Nat.succ_pos _
    · refine List.Pairwise.imp_of_mem ?_ (ih.sublist (List.filter_sublist _))
      intro a b ha hb hab
      simp only [List.mem_filter, decide_eq_true_eq] at ha hb
      rw [List.indexOf_cons_ne _ (Ne.symm ha.2), List.indexOf_cons_ne _ (Ne.symm hb.2)]
      exact Nat.succ_lt_succ hab

theorem mem_detected {p : Program} {asts : List BaseAST} {ct : Nat} :
    ct ∈ detected p asts ↔ ∃ a ∈ asts, isInnerClass p a = some (some ct) := by
  simp only [detected, List.mem_filterMap]
  constructor
  · rintro ⟨a, ha, h⟩
    refine ⟨a, ha, ?_⟩
    cases hr : isInnerClass p a with
    | none => simp [hr] at h
    | some r => simp [hr] at h; simp [h]
  · rintro ⟨a, ha, h⟩
    exact ⟨a, ha, by simp [h]⟩

theorem all_nested_classes_eq {p : Program} {cs : List Nat}
    (h : all_nested_classes p = some cs) :
    cs = firstOccurrences (detected p p.gAsts) := by
  have := scan_eq_foldl p p.gAsts [] cs h
  rw [foldl_add_exclusive] at this
  simpa using this

theorem mem_all_nested_classes {p : Program} {cs : List Nat}
    (h : all_nested_classes p = some cs) (ct : Nat) :
    ct ∈ cs ↔ ∃ a ∈ p.gAsts, isInnerClass p a = some (some ct) := by
  rw [all_nested_classes_eq h, mem_firstOccurrences, mem_detected]

/-- C5: the scan of `flattenClasses` collects every symbol the detector returns
exactly once, in the order of first occurrence in the enumeration; the
relocation loop runs over that sequence, so a symbol returned several times is
detached and appended once. -/
theorem all_nested_classes_exclusive (p : Program) (cs : List Nat)
    (h : all_nested_classes p = some cs) :
    cs = firstOccurrences (detected p p.gAsts) ∧
    cs.Nodup ∧
    (∀ ct, ct ∈ cs ↔ ∃ a ∈ p.gAsts, isInnerClass p a = some (some ct)) ∧
    (∀ ct, (∃ a ∈ p.gAsts, isInnerClass p a = some (some ct)) → cs.count ct = 1) ∧
    cs.Pairwise (fun x y =>
      List.indexOf x (detected p p.gAsts) < List.indexOf y (detected p p.gAsts)) ∧
    flattenClasses p = relocateAll p cs := by
  have hcs := all_nested_classes_eq h
  have hnd : cs.Nodup := hcs ▸ nodup_firstOccurrences _
  refine ⟨hcs, hnd, mem_all_nested_classes h, ?_, ?_, ?_⟩
  · intro ct hct
    exact List.count_eq_one_of_mem hnd ((mem_all_nested_classes h ct).2 hct)
  · rw [hcs]
    exact pairwise_firstOccurrences _
  · simp [flattenClasses, h]

/-- C5, on the tree `exRefs`: the inner type `B` is returned three times by the
detector and collected once. -/
theorem all_nested_classes_exclusive_witness :
    all_nested_classes exRefs = some [1] ∧ detected exRefs exRefs.gAsts = [1, 1, 1] ∧
    ([1] = firstOccurrences (detected exRefs exRefs.gAsts) ∧
    [1].Nodup ∧
    (∀ ct, ct ∈ [1] ↔ ∃ a ∈ exRefs.gAsts, isInnerClass exRefs a = some (some ct)) ∧
    (∀ ct, (∃ a ∈ exRefs.gAsts, isInnerClass exRefs a = some (some ct)) → [1].count ct = 1) ∧
    [1].Pairwise (fun x y =>
      List.indexOf x (detected exRefs exRefs.gAsts) < List.indexOf y (detected exRefs exRefs.gAsts)) ∧
    flattenClasses exRefs = relocateAll exRefs [1]) :=
  ⟨by decide, by decide, all_nested_classes_exclusive exRefs [1] (by decide)⟩

/-! ## What the detector decides -/

/-- C7, as stated, fails on `exRefs`: node 2, the definition of the field `x` of
type `B`, is the definition of a variable, not a Type Definition, and the
detector returns the inner type `B` on it. -/
theorem isInnerClass_field_counterexample :
    wellFormed exRefs = true ∧ linked exRefs = true ∧
    isTypeDefinition exRefs (.ofExpr 2) = false ∧
    defSymTag exRefs 2 = some .E_VarSymbol ∧
    isInnerClass exRefs (.ofExpr 2) = some (some 1) := by
  decide

/-- C7, amended: the detector returns a type `ct` exactly on a definition node
(of a type, a variable or a field) whose symbol has the aggregate type `ct`, when
the parent symbol of the definition point of `ct` has an aggregate type; on
every other node on which it does not fault it returns nothing, in particular
when that parent symbol (a Module, a function) has no aggregate type. -/
theorem isInnerClass_iff (p : Program) (n : BaseAST) :
    (∀ ct, isInnerClass p n = some (some ct) ↔
      ∃ d, toDefExpr p n = some (some d) ∧ defSymType p d = some (some ct) ∧
        toClassType p (some ct) = some (some ct) ∧ ∃ o, outerOf p ct = some (some o)) ∧
    (isInnerClass p n ≠ none →
      (¬ ∃ d ct, toDefExpr p n = some (some d) ∧ defSymType p d = some (some ct) ∧
        toClassType p (some ct) = some (some ct) ∧ ∃ o, outerOf p ct = some (some o)) →
      isInnerClass p n = some none) ∧
    (∀ d ct, toDefExpr p n = some (some d) → defSymType p d = some (some ct) →
      toClassType p (some ct) = some (some ct) → outerOf p ct = some none →
      isInnerClass p n = some none) := by
  refine ⟨isInnerClass_eq_some_iff p n, ?_, ?_⟩
  · intro hne hno
    cases hr : isInnerClass p n with
    | none => exact absurd hr hne
    | some r =>
      cases r with
      | none => rfl
      | some ct =>
        obtain ⟨d, h⟩ := (isInnerClass_eq_some_iff p n ct).1 hr
        exact absurd ⟨d, ct, h⟩ hno
  · intro d ct hd ht hc ho
    simp [isInnerClass, hd, ht, hc, ho]

/-- C7, amended, on `exNested`: the definition of `B` (inside `A`) is classified
inner, the definition of `A` (inside the Module) is not. -/
theorem isInnerClass_iff_witness :
    isInnerClass exNested (.ofExpr 1) = some (some 1) ∧
    isInnerClass exNested (.ofExpr 0) = some none :=
  ⟨((isInnerClass_iff exNested (.ofExpr 1)).1 1).2 ⟨1, by decide, by decide, by decide, 0, by decide⟩,
   (isInnerClass_iff exNested (.ofExpr 0)).2.2 0 0 (by decide) (by decide) (by decide) (by decide)⟩

/-- C9, as stated, fails on `exOrphan`: the definition of `A` has no parent
symbol, and the detector does not return nothing, it faults. -/
theorem isInnerClass_orphan_counterexample :
    isTypeDefinition exOrphan (.ofExpr 0) = true ∧
    parentSymbolOf exOrphan 0 = none ∧
    isInnerClass exOrphan (.ofExpr 0) ≠ some none := by
  decide

/-- C9, amended: on a definition node whose symbol has an aggregate type `ct`
the definition point of which has no parent symbol, the detector dereferences
the `NULL` parent symbol: it faults and returns no result. -/
theorem isInnerClass_no_parent (p : Program) (n : BaseAST) (d ct cd : Nat)
    (hd : toDefExpr p n = some (some d)) (ht : defSymType p d = some (some ct))
    (hc : toClassType p (some ct) = some (some ct))
    (hcd : defPointOf p ct = some cd) (hp : parentSymbolOf p cd = none) :
    isInnerClass p n = none := by
  have ho : outerOf p ct = none := by
    unfold parentSymbolOf at hp
    unfold outerOf
    rw [hcd]
    cases he : p.exprs[cd]? with
    | none => simp [he]
    | some cdx =>
      rw [he] at hp
      simp only at hp
      simp [he, hp]
  simp [isInnerClass, hd, ht, hc, ho]

/-- C9, amended, on `exOrphan`. -/
theorem isInnerClass_no_parent_witness : isInnerClass exOrphan (.ofExpr 0) = none :=
  isInnerClass_no_parent exOrphan (.ofExpr 0) 0 0 0 (by decide) (by decide) (by decide)
    (by decide) (by decide)

/-! ## A tree without nested types -/

theorem scan_all_none (p : Program) (asts : List BaseAST)
    (h : ∀ a ∈ asts, isInnerClass p a = some none) :
    ∀ acc, scan p asts acc = some acc := by
  induction asts with
  | nil => intro acc; rfl
  | cons a rest ih =>
    intro acc
    have ha := h a (List.mem_cons_self _ _)
    simp only [scan, ha]
    exact ih (fun b hb => h b (List.mem_cons_of_mem _ hb)) acc

theorem flattenClasses_of_flat (p : Program)
    (h : ∀ a ∈ p.gAsts, isInnerClass p a = some none) :
    all_nested_classes p = some [] ∧ flattenClasses p = some p := by
  have hs : all_nested_classes p = some [] := scan_all_none p p.gAsts h []
  exact ⟨hs, by simp [flattenClasses, hs, relocateAll]⟩

/-- C10: when the detector classifies no enumerated node as inner, the scan
collects the empty sequence and the pass returns the tree as it was: every
block, and every other part of the tree, is unchanged. -/
theorem flattenClasses_flat (p : Program)
    (h : ∀ a ∈ p.gAsts, isInnerClass p a = some none) :
    all_nested_classes p = some [] ∧ flattenClasses p = some p ∧
    ∀ q, flattenClasses p = some q → q.blocks = p.blocks := by
  obtain ⟨hs, hf⟩ := flattenClasses_of_flat p h
  refine ⟨hs, hf, ?_⟩
  intro q hq
  rw [hf] at hq
  cases hq
  rfl

/-- C10, on `exFlat`. -/
theorem flattenClasses_flat_witness :
    (∀ a ∈ exFlat.gAsts, isInnerClass exFlat a = some none) ∧
    all_nested_classes exFlat = some [] ∧ flattenClasses exFlat = some exFlat ∧
    ∀ q, flattenClasses exFlat = some q → q.blocks = exFlat.blocks :=
  ⟨by decide, flattenClasses_flat exFlat (by decide)⟩

/-! ## Detaching and appending, on the blocks -/

theorem getElem?_moveBlocks (bs : List (List Nat)) (b d i : Nat) :
    (moveBlocks bs b d)[i]? =
      if i = b then (bs[b]?).map (fun body => body.filter (fun x => decide (x ≠ d)) ++ [d])
      else (bs[i]?).map (fun body => body.filter (fun x => decide (x ≠ d))) := by
  unfold moveBlocks
  cases hb : bs[b]? with
  | none =>
    simp only [List.getElem?_map, hb, Option.map_none']
    split
    · rename_i h; subst h; simp [hb]
    · rfl
  | some body =>
    simp only [List.getElem?_map, hb, Option.map_some']
    by_cases h : i = b
    · subst h
      have hlt : i < bs.length := by
        rcases List.getElem?_eq_some_iff.1 hb with ⟨h1, _⟩
        exact h1
      simp [List.getElem?_set, hlt]
    · simp [h, List.getElem?_set_ne (Ne.symm h)]

theorem length_moveBlocks (bs : List (List Nat)) (b d : Nat) :
    (moveBlocks bs b d).length = bs.length := by
  unfold moveBlocks
  split <;> simp

theorem occurrences_cons (body : List Nat) (bs : List (List Nat)) (x : Nat) :
    occurrences (body :: bs) x = body.count x + occurrences bs x := by
  simp [occurrences]

theorem occurrences_filter (bs : List (List Nat)) (d x : Nat) :
    occurrences (bs.map (fun body => body.filter (fun y => decide (y ≠ d)))) x =
      if x = d then 0 else occurrences bs x := by
  induction bs with
  | nil => simp [occurrences]
  | cons body bs ih =>
    rw [List.map_cons, occurrences_cons, occurrences_cons, ih]
    by_cases h : x = d
    · subst h
      simp [List.count_eq_zero]
    · simp only [h, if_false]
      rw [List.count_filter]
      simpa using h

theorem occurrences_set (bs : List (List Nat)) (d x : Nat) :
    ∀ (b : Nat) (body : List Nat), bs[b]? = some body →
      occurrences (bs.set b (body ++ [d])) x =
        occurrences bs x + (if x = d then 1 else 0) := by
  induction bs with
  | nil => intro b body h; simp at h
  | cons hd tl ih =>
    intro b body h
    cases b with
    | zero =>
      simp only [List.getElem?_cons_zero, Option.some.injEq] at h
      subst h
      simp only [List.set_cons_zero, occurrences_cons, List.count_append]
      by_cases hx : x = d
      · subst hx; simp; omega
      · have : d ≠ x := fun e => hx e.symm
        simp [hx, List.count_singleton, this]
    | succ b =>
      simp only [List.getElem?_cons_succ] at h
      simp only [List.set_cons_succ, occurrences_cons, ih b body h]
      omega

theorem occurrences_moveBlocks (bs : List (List Nat)) (b d x : Nat) (hb : b < bs.length) :
    occurrences (moveBlocks bs b d) x = if x = d then 1 else occurrences bs x := by
  unfold moveBlocks
  have : (bs.map (fun body => body.filter (fun x => decide (x ≠ d))))[b]? =
      some ((bs[b]).filter (fun x => decide (x ≠ d))) := by
    simp [List.getElem?_eq_getElem hb]
  rw [this]
  simp only
  rw [occurrences_set _ _ _ _ _ this, occurrences_filter]
  by_cases h : x = d <;> simp [h]

/-! ## One step of the relocation loop -/

theorem moveToModule_of {p : Program} {ct m d b : Nat} {dx : Expr}
    (hm : getModule p ct = some m) (hd : defPointOf p ct = some d)
    (hb : blockOf p ct = some b) (hlt : b < p.blocks.length) (hx : p.exprs[d]? = some dx) :
    moveToModule p ct = some { p with
      blocks := moveBlocks p.blocks b d
      exprs := p.exprs.set d { dx with parentSymbol := some m } } := by
  unfold blockOf at hb
  rw [hm] at hb
  simp only at hb
  cases hs : p.syms[m]? with
  | none => simp [hs] at hb
  | some msy =>
    rw [hs] at hb
    simp only at hb
    have hbody : (p.blocks.map (fun body => body.filter (fun x => decide (x ≠ d))))[b]? =
        some ((p.blocks[b]).filter (fun x => decide (x ≠ d))) := by
      simp [List.getElem?_eq_getElem hlt]
    simp only [moveToModule, hm, hd, hs, hb, insertAtTail, remove, hbody, hx, moveBlocks]

theorem moveToModule_eq_some {p q : Program} {ct : Nat} (h : moveToModule p ct = some q) :
    ∃ m d b dx, getModule p ct = some m ∧ defPointOf p ct = some d ∧
      blockOf p ct = some b ∧ b < p.blocks.length ∧ p.exprs[d]? = some dx ∧
      q = { p with
        blocks := moveBlocks p.blocks b d
        exprs := p.exprs.set d { dx with parentSymbol := some m } } := by
  unfold moveToModule at h
  split at h
  · simp at h
  · rename_i m hm
    split at h
    · simp at h
    · rename_i d hd
      split at h
      · simp at h
      · rename_i msy hs
        split at h
        · simp at h
        · rename_i b hb
          have hbo : blockOf p ct = some b := by simp [blockOf, hm, hs, hb]
          unfold insertAtTail at h
          split at h
          · rename_i body dx hbody hx
            simp only [remove] at hbody hx
            have hlt : b < p.blocks.length := by
              have := (List.getElem?_eq_some_iff.1 hbody).1
              simpa using this
            refine ⟨m, d, b, dx, hm, hd, hbo, hlt, hx, ?_⟩
            simp only [remove, Option.some.injEq] at h
            rw [← h]
            simp only [moveBlocks, hbody]
          · simp at h

/-! ## The walk to the owning Module -/

theorem getModuleSym_succ (p : Program) :
    ∀ (n : Nat) (s : Option Nat) (m : Nat),
      getModuleSym p n s = some m → getModuleSym p (n + 1) s = some m := by
  intro n
  induction n with
  | zero => intro s m h; simp [getModuleSym] at h
  | succ n ih =>
    intro s m h
    cases s with
    | none => simp [getModuleSym] at h
    | some s0 =>
      rw [getModuleSym] at h ⊢
      cases hs : p.syms[s0]? with
      | none => simp [hs] at h
      | some sy =>
        simp only [hs] at h ⊢
        by_cases hmod : sy.isModule = true
        · simpa [hmod] using h
        · simp only [hmod, if_false] at h ⊢
          cases hd : sy.defPoint with
          | none => simp [hd] at h
          | some d =>
            simp only [hd] at h ⊢
            cases hx : p.exprs[d]? with
            | none => simp [hx] at h
            | some dx =>
              simp only [hx] at h ⊢
              exact ih _ _ h

theorem getModuleSym_add (p : Program) (n k : Nat) (s : Option Nat) (m : Nat)
    (h : getModuleSym p n s = some m) : getModuleSym p (n + k) s = some m := by
  induction k with
  | zero => exact h
  | succ k ih => exact getModuleSym_succ p _ _ _ ih

theorem getModuleSym_unique (p : Program) (a b : Nat) (s : Option Nat) (m1 m2 : Nat)
    (h1 : getModuleSym p a s = some m1) (h2 : getModuleSym p b s = some m2) : m1 = m2 := by
  have e1 := getModuleSym_add p a b s m1 h1
  have e2 := getModuleSym_add p b a s m2 h2
  rw [Nat.add_comm] at e2
  rw [e1] at e2
  exact Option.some.inj e2

theorem getModuleSym_isModule (p : Program) :
    ∀ (n : Nat) (s : Option Nat) (m : Nat), getModuleSym p n s = some m →
      ∃ msy, p.syms[m]? = some msy ∧ msy.isModule = true := by
  intro n
  induction n with
  | zero => intro s m h; simp [getModuleSym] at h
  | succ n ih =>
    intro s m h
    cases s with
    | none => simp [getModuleSym] at h
    | some s0 =>
      rw [getModuleSym] at h
      cases hs : p.syms[s0]? with
      | none => simp [hs] at h
      | some sy =>
        simp only [hs] at h
        by_cases hmod : sy.isModule = true
        · simp only [hmod, if_true, Option.some.injEq] at h
          subst h
          exact ⟨sy, hs, hmod⟩
        · simp only [hmod, if_false] at h
          cases hd : sy.defPoint with
          | none => simp [hd] at h
          | some d =>
            simp only [hd] at h
            cases hx : p.exprs[d]? with
            | none => simp [hx] at h
            | some dx =>
              simp only [hx] at h
              exact ih _ _ h

theorem getModuleSym_of_isModule (p : Program) (n m : Nat) (msy : Symbol)
    (hs : p.syms[m]? = some msy) (hmod : msy.isModule = true) :
    getModuleSym p (n + 1) (some m) = some m := by
  simp [getModuleSym, hs, hmod]

theorem Evolves.refl (p : Program) : Evolves p p :=
  ⟨rfl, rfl, rfl, rfl, rfl, fun _ dx h => ⟨dx, h, rfl, rfl, Or.inl rfl⟩⟩

theorem Evolves.getModuleSym_eq {p q : Program} (e : Evolves p q) :
    ∀ (n : Nat) (s : Option Nat) (m : Nat),
      getModuleSym p n s = some m → getModuleSym q n s = some m := by
  intro n
  induction n with
  | zero => intro s m h; simp [getModuleSym] at h
  | succ n ih =>
    intro s m h
    cases s with
    | none => simp [getModuleSym] at h
    | some s0 =>
      rw [getModuleSym] at h ⊢
      rw [e.syms]
      cases hs : p.syms[s0]? with
      | none => simp [hs] at h
      | some sy =>
        simp only [hs] at h ⊢
        by_cases hmod : sy.isModule = true
        · simpa [hmod] using h
        · simp only [hmod, if_false] at h ⊢
          cases hd : sy.defPoint with
          | none => simp [hd] at h
          | some d =>
            simp only [hd] at h ⊢
            cases hx : p.exprs[d]? with
            | none => simp [hx] at h
            | some dx =>
              simp only [hx] at h
              obtain ⟨dy, hy, _, _, hpar⟩ := e.expr d dx hx
              simp only [hy]
              rcases hpar with hsame | ⟨m2, hm2, hwalk⟩
              · rw [hsame]
                exact ih _ _ h
              · have hmm : m = m2 := getModuleSym_unique p _ _ _ _ _ h hwalk
                subst hmm
                rw [hm2]
                obtain ⟨msy, hms, hmmod⟩ := getModuleSym_isModule p _ _ _ h
                cases n with
                | zero => simp [getModuleSym] at h
                | succ k =>
                  have hms2 : q.syms[m]? = some msy := by rw [e.syms]; exact hms
                  exact getModuleSym_of_isModule q k m msy hms2 hmmod

theorem Evolves.defPointOf_eq {p q : Program} (e : Evolves p q) (ct : Nat) :
    defPointOf q ct = defPointOf p ct := by
  simp [defPointOf, e.syms, e.types]

theorem Evolves.getModule_eq {p q : Program} (e : Evolves p q) {ct m : Nat}
    (h : getModule p ct = some m) : getModule q ct = some m := by
  unfold getModule at h ⊢
  rw [e.defPointOf_eq]
  cases hd : defPointOf p ct with
  | none => simp [hd] at h
  | some d =>
    simp only [hd] at h ⊢
    cases hx : p.exprs[d]? with
    | none => simp [hx] at h
    | some dx =>
      simp only [hx] at h
      obtain ⟨dy, hy, _, _, hpar⟩ := e.expr d dx hx
      simp only [hy, e.syms]
      rcases hpar with hsame | ⟨m2, hm2, hwalk⟩
      · rw [hsame]
        exact e.getModuleSym_eq _ _ _ h
      · have hmm : m = m2 := getModuleSym_unique p _ _ _ _ _ h hwalk
        subst hmm
        rw [hm2]
        obtain ⟨msy, hms, hmmod⟩ := getModuleSym_isModule p _ _ _ h
        have hms2 : q.syms[m]? = some msy := by rw [e.syms]; exact hms
        exact getModuleSym_of_isModule q _ m msy hms2 hmmod

theorem Evolves.blockOf_eq {p q : Program} (e : Evolves p q) {ct m : Nat}
    (h : getModule p ct = some m) : blockOf q ct = blockOf p ct := by
  simp [blockOf, e.getModule_eq h, h, e.syms]

/-! ## The relocation loop on a well-formed tree -/

theorem getModule_some {p : Program} {ct m : Nat} (h : getModule p ct = some m) :
    ∃ d dx, defPointOf p ct = some d ∧ p.exprs[d]? = some dx ∧
      getModuleSym p (p.syms.length + 1) dx.parentSymbol = some m := by
  unfold getModule at h
  cases hd : defPointOf p ct with
  | none => simp [hd] at h
  | some d =>
    simp only [hd] at h
    cases hx : p.exprs[d]? with
    | none => simp [hx] at h
    | some dx =>
      simp only [hx] at h
      exact ⟨d, dx, rfl, hx, h⟩

theorem getModule_congr {p : Program} {c1 c2 : Nat}
    (h : defPointOf p c1 = defPointOf p c2) : getModule p c1 = getModule p c2 := by
  simp [getModule, h]

theorem resolvable_iff {p : Program} {ct : Nat} :
    resolvable p ct = true ↔
      ∃ m b, getModule p ct = some m ∧ blockOf p ct = some b ∧ b < p.blocks.length := by
  unfold resolvable blockOf
  cases hm : getModule p ct with
  | none => simp
  | some m =>
    cases hs : p.syms[m]? with
    | none => simp [hs]
    | some msy =>
      cases hb : msy.block with
      | none => simp [hs, hb]
      | some b => simp [hs, hb]

theorem Evolves.step {p q : Program} (e : Evolves p q) {ct m b d : Nat}
    (hm : getModule p ct = some m) (hb : blockOf p ct = some b) (hlt : b < p.blocks.length)
    (hd : defPointOf p ct = some d) :
    ∃ q2, moveToModule q ct = some q2 ∧ Evolves p q2 ∧
      q2.blocks = moveBlocks q.blocks b d ∧ parentSymbolOf q2 d = some m ∧
      ∀ x, x ≠ d → parentSymbolOf q2 x = parentSymbolOf q x := by
  obtain ⟨d2, dx, hd2, hx, hwalk⟩ := getModule_some hm
  rw [hd] at hd2
  cases hd2
  obtain ⟨dy, hy, hdef, hsym, _⟩ := e.expr d dx hx
  have hdlt : d < q.exprs.length := (List.getElem?_eq_some_iff.1 hy).1
  have hmove := moveToModule_of (e.getModule_eq hm) ((e.defPointOf_eq ct).trans hd)
    ((e.blockOf_eq hm).trans hb) (e.nblocks ▸ hlt) hy
  refine ⟨_, hmove, ?_, rfl, ?_, ?_⟩
  · refine ⟨e.syms, e.types, e.gAsts, ?_, ?_, ?_⟩
    · simp only [length_moveBlocks]
      exact e.nblocks
    · simp only [List.length_set]
      exact e.nexprs
    · intro d0 dx0 hx0
      by_cases h0 : d0 = d
      · subst h0
        rw [hx] at hx0
        cases hx0
        refine ⟨{ dy with parentSymbol := some m }, ?_, hdef, hsym, Or.inr ⟨m, rfl, hwalk⟩⟩
        simp [List.getElem?_set, hdlt]
      · obtain ⟨dy0, hy0, r⟩ := e.expr d0 dx0 hx0
        refine ⟨dy0, ?_, r⟩
        simp only
        rw [List.getElem?_set_ne (Ne.symm h0)]
        exact hy0
  · simp [parentSymbolOf, List.getElem?_set, hdlt]
  · intro x hxd
    simp only [parentSymbolOf]
    rw [List.getElem?_set_ne (Ne.symm hxd)]

theorem relocateAll_evolves (p : Program) :
    ∀ (cs : List Nat) (q : Program), Evolves p q → (∀ ct ∈ cs, resolvable p ct = true) →
      ∃ q2, relocateAll q cs = some q2 ∧ Evolves p q2 ∧
        q2.blocks = applyMoves q.blocks (cs.filterMap (moveOf p)) ∧
        (∀ ct, PlacedAt p q ct → PlacedAt p q2 ct) ∧
        (∀ ct ∈ cs, PlacedAt p q2 ct) ∧
        (∀ x, (∀ ct ∈ cs, defPointOf p ct ≠ some x) →
          parentSymbolOf q2 x = parentSymbolOf q x) := by
  intro cs
  induction cs with
  | nil =>
    intro q e _
    exact ⟨q, rfl, e, rfl, fun _ h => h, fun _ h => absurd h (List.not_mem_nil _),
      fun _ _ => rfl⟩
  | cons ct rest ih =>
    intro q e hres
    obtain ⟨m, b, hm, hb, hlt⟩ := resolvable_iff.1 (hres ct (List.mem_cons_self _ _))
    obtain ⟨d, dx, hd, hx, hwalk⟩ := getModule_some hm
    obtain ⟨q1, hmove, e1, hblocks, hpar, hother⟩ := e.step hm hb hlt hd
    have hstable : ∀ c, PlacedAt p q c → PlacedAt p q1 c := by
      rintro c ⟨d0, m0, hd0, hm0, hp0⟩
      refine ⟨d0, m0, hd0, hm0, ?_⟩
      by_cases h0 : d0 = d
      · subst h0
        have : getModule p c = getModule p ct := getModule_congr (hd0.trans hd.symm)
        rw [hm0, hm] at this
        cases this
        exact hpar
      · rw [hother d0 h0]
        exact hp0
    obtain ⟨q2, hrel, e2, hb2, hst2, hall2, hoth2⟩ :=
      ih q1 e1 (fun c hc => hres c (List.mem_cons_of_mem _ hc))
    refine ⟨q2, ?_, e2, ?_, fun c hc => hst2 c (hstable c hc), ?_, ?_⟩
    · simp [relocateAll, hmove, hrel]
    · have hmv : moveOf p ct = some (b, d) := by simp [moveOf, hb, hd]
      rw [hb2, hblocks]
      simp [List.filterMap_cons, hmv, applyMoves]
    · intro c hc
      rcases List.mem_cons.1 hc with rfl | hc
      · exact hst2 _ ⟨d, m, hd, hm, hpar⟩
      · exact hall2 c hc
    · intro x hx
      rw [hoth2 x (fun c hc => hx c (List.mem_cons_of_mem _ hc))]
      apply hother
      intro hxd
      exact hx ct (List.mem_cons_self _ _) (hxd ▸ hd)

/-! ## Well-formed trees: the pass runs to completion -/

theorem wellFormed_iff {p : Program} :
    wellFormed p = true ↔
      (∀ dx ∈ p.exprs, defHasSym p dx = true) ∧
      (∀ sy ∈ p.syms, typePtrOk p sy = true ∧ moduleNotClass p sy = true) ∧
      (∀ ct, ct < p.types.length → classOk p ct = true) ∧
      (∀ a ∈ p.gAsts, nodeOk p a = true) := by
  simp [wellFormed, List.all_eq_true, and_assoc]

theorem toClassType_total {p : Program} {sy : Symbol} (h : typePtrOk p sy = true) :
    ∃ r, toClassType p sy.type = some r := by
  unfold typePtrOk at h
  unfold toClassType
  cases ht : sy.type with
  | none => exact ⟨none, rfl⟩
  | some t =>
    simp only [ht, decide_eq_true_eq] at h
    simp only [List.getElem?_eq_getElem h]
    split <;> exact ⟨_, rfl⟩

theorem classOk_resolvable {p : Program} {ct : Nat} (hwf : wellFormed p = true)
    (hc : toClassType p (some ct) = some (some ct)) : resolvable p ct = true := by
  obtain ⟨_, ty, hty, hcls⟩ := toClassType_some_some hc
  have hlt : ct < p.types.length := (List.getElem?_eq_some_iff.1 hty).1
  have := (wellFormed_iff.1 hwf).2.2.1 ct hlt
  simpa [classOk, hty, hcls] using this

theorem outerOf_total {p : Program} {ct : Nat} (hwf : wellFormed p = true)
    (hr : resolvable p ct = true) : ∃ r, outerOf p ct = some r := by
  obtain ⟨m, b, hm, _, _⟩ := resolvable_iff.1 hr
  obtain ⟨d, dx, hd, hx, hwalk⟩ := getModule_some hm
  unfold outerOf
  simp only [hd, hx]
  cases hp : dx.parentSymbol with
  | none => simp [hp, getModuleSym] at hwalk
  | some ps =>
    simp only
    rw [hp, getModuleSym] at hwalk
    cases hs : p.syms[ps]? with
    | none => simp [hs] at hwalk
    | some psy =>
      simp only
      exact toClassType_total ((wellFormed_iff.1 hwf).2.1 psy (List.getElem?_mem hs)).1

theorem isInnerClass_total {p : Program} (hwf : wellFormed p = true) {a : BaseAST}
    (ha : a ∈ p.gAsts) : ∃ r, isInnerClass p a = some r := by
  have hw := wellFormed_iff.1 hwf
  cases a with
  | ofSymbol s => exact ⟨none, by simp [isInnerClass, toDefExpr]⟩
  | ofType t => exact ⟨none, by simp [isInnerClass, toDefExpr]⟩
  | ofExpr e =>
    have hlt : e < p.exprs.length := by simpa [nodeOk] using hw.2.2.2 _ ha
    have hx : p.exprs[e]? = some p.exprs[e] := List.getElem?_eq_getElem hlt
    by_cases hdef : (p.exprs[e]).isDefExpr = true
    · have hd : toDefExpr p (.ofExpr e) = some (some e) := by simp [toDefExpr, hx, hdef]
      have hsym := hw.1 _ (List.getElem_mem hlt)
      simp only [defHasSym, hdef, Bool.not_true, Bool.false_or] at hsym
      cases hs : (p.exprs[e]).sym with
      | none => simp [hs] at hsym
      | some s =>
        simp only [hs, decide_eq_true_eq] at hsym
        have hsy : p.syms[s]? = some p.syms[s] := List.getElem?_eq_getElem hsym
        have ht : defSymType p e = some (p.syms[s]).type := by
          simp [defSymType, hx, hs, hsy]
        obtain ⟨r, hr⟩ := toClassType_total (hw.2.1 _ (List.getElem_mem hsym)).1
        cases r with
        | none => exact ⟨none, by simp [isInnerClass, hd, ht, hr]⟩
        | some ct =>
          have hc : toClassType p (some ct) = some (some ct) := by
            obtain ⟨h1, _⟩ := toClassType_some_some hr
            rw [h1] at hr
            exact hr
          obtain ⟨o, ho⟩ := outerOf_total hwf (classOk_resolvable hwf hc)
          cases o with
          | none => exact ⟨none, by simp [isInnerClass, hd, ht, hr, ho]⟩
          | some o => exact ⟨some ct, by simp [isInnerClass, hd, ht, hr, ho]⟩
    · exact ⟨none, by simp [isInnerClass, toDefExpr, hx, hdef]⟩

theorem scan_total (p : Program) (asts : List BaseAST)
    (h : ∀ a ∈ asts, ∃ r, isInnerClass p a = some r) :
    ∀ acc, ∃ cs, scan p asts acc = some cs := by
  induction asts with
  | nil => intro acc; exact ⟨acc, rfl⟩
  | cons a rest ih =>
    intro acc
    obtain ⟨r, hr⟩ := h a (List.mem_cons_self _ _)
    have ih2 := ih (fun b hb => h b (List.mem_cons_of_mem _ hb))
    cases r with
    | none =>
      obtain ⟨cs, hcs⟩ := ih2 acc
      exact ⟨cs, by simp [scan, hr, hcs]⟩
    | some ct =>
      obtain ⟨cs, hcs⟩ := ih2 (add_exclusive acc ct)
      exact ⟨cs, by simp [scan, hr, hcs]⟩

theorem collected_resolvable {p : Program} (hwf : wellFormed p = true) {cs : List Nat}
    (h : all_nested_classes p = some cs) : ∀ ct ∈ cs, resolvable p ct = true := by
  intro ct hct
  obtain ⟨a, _, hia⟩ := (mem_all_nested_classes h ct).1 hct
  obtain ⟨_, _, _, hc, _⟩ := (isInnerClass_eq_some_iff p a ct).1 hia
  exact classOk_resolvable hwf hc

/-- On a well-formed tree the pass runs to completion, and its result is the
original tree with the collected definitions moved as planned in the original
tree. -/
theorem flattenClasses_run {p : Program} (hwf : wellFormed p = true) :
    ∃ cs q, all_nested_classes p = some cs ∧ flattenClasses p = some q ∧ Evolves p q ∧
      q.blocks = applyMoves p.blocks (cs.filterMap (moveOf p)) ∧
      (∀ ct ∈ cs, PlacedAt p q ct) ∧
      (∀ x, (∀ ct ∈ cs, defPointOf p ct ≠ some x) →
        parentSymbolOf q x = parentSymbolOf p x) := by
  obtain ⟨cs, hcs⟩ := scan_total p p.gAsts (fun a ha => isInnerClass_total hwf ha) []
  obtain ⟨q, hq, e, hb, _, hall, hoth⟩ :=
    relocateAll_evolves p cs p (Evolves.refl p) (collected_resolvable hwf hcs)
  exact ⟨cs, q, hcs, by simp [flattenClasses, all_nested_classes, hcs, hq], e, hb, hall, hoth⟩

/-! ## Preservation of symbols and definitions -/

theorem moveToModule_frame {p q : Program} {ct : Nat} (h : moveToModule p ct = some q) :
    q.syms = p.syms ∧ q.types = p.types ∧ q.gAsts = p.gAsts ∧
    q.exprs.length = p.exprs.length ∧ q.blocks.length = p.blocks.length ∧
    (∀ d, nodeInfo q d = nodeInfo p d) ∧
    (∀ x, occurrences q.blocks x = occurrences p.blocks x ∨ occurrences q.blocks x = 1) := by
  obtain ⟨m, d, b, dx, _, _, _, hlt, hx, rfl⟩ := moveToModule_eq_some h
  refine ⟨rfl, rfl, rfl, by simp, by simp [length_moveBlocks], ?_, ?_⟩
  · intro d0
    by_cases h0 : d0 = d
    · subst h0
      have hdlt : d0 < p.exprs.length := (List.getElem?_eq_some_iff.1 hx).1
      simp [nodeInfo, List.getElem?_set, hdlt, hx]
    · simp only [nodeInfo]
      rw [List.getElem?_set_ne (Ne.symm h0)]
  · intro x
    simp only [occurrences_moveBlocks _ _ _ _ hlt]
    by_cases hxd : x = d
    · right; simp [hxd]
    · left; simp [hxd]

theorem relocateAll_frame :
    ∀ (cs : List Nat) (p q : Program), relocateAll p cs = some q →
      q.syms = p.syms ∧ q.types = p.types ∧ q.gAsts = p.gAsts ∧
      q.exprs.length = p.exprs.length ∧ q.blocks.length = p.blocks.length ∧
      (∀ d, nodeInfo q d = nodeInfo p d) ∧
      (∀ x, occurrences q.blocks x = occurrences p.blocks x ∨ occurrences q.blocks x = 1) := by
  intro cs
  induction cs with
  | nil =>
    intro p q h
    simp only [relocateAll, Option.some.injEq] at h
    subst h
    exact ⟨rfl, rfl, rfl, rfl, rfl, fun _ => rfl, fun _ => Or.inl rfl⟩
  | cons ct rest ih =>
    intro p q h
    unfold relocateAll at h
    split at h
    · simp at h
    · rename_i q1 h1
      obtain ⟨a1, a2, a3, a4, a5, a6, a7⟩ := moveToModule_frame h1
      obtain ⟨b1, b2, b3, b4, b5, b6, b7⟩ := ih q1 q h
      refine ⟨b1.trans a1, b2.trans a2, b3.trans a3, b4.trans a4, b5.trans a5,
        fun d => (b6 d).trans (a6 d), ?_⟩
      intro x
      rcases b7 x with e | e
      · rcases a7 x with e2 | e2
        · exact Or.inl (e.trans e2)
        · exact Or.inr (e.trans e2)
      · exact Or.inr e

/-- C6: the pass keeps the symbols and the types as they are (none created,
destroyed or renamed), keeps every definition node with its kind and its
symbol, hence every symbol with its definition point, and a node that occupied
exactly one position of the tree still occupies exactly one; on a well-formed
tree the pass does return a tree. -/
theorem flattenClasses_preserves (p : Program) :
    (wellFormed p = true → ∃ q, flattenClasses p = some q) ∧
    ∀ q, flattenClasses p = some q →
      q.syms = p.syms ∧ q.types = p.types ∧
      q.exprs.length = p.exprs.length ∧
      (∀ d, nodeInfo q d = nodeInfo p d) ∧
      (∀ ct, defPointOf q ct = defPointOf p ct) ∧
      (∀ x, occurrences p.blocks x = 1 → occurrences q.blocks x = 1) := by
  constructor
  · intro hwf
    obtain ⟨_, q, _, hq, _⟩ := flattenClasses_run hwf
    exact ⟨q, hq⟩
  · intro q h
    unfold flattenClasses at h
    split at h
    · simp at h
    · obtain ⟨a1, a2, _, a4, _, a6, a7⟩ := relocateAll_frame _ p q h
      refine ⟨a1, a2, a4, a6, ?_, ?_⟩
      · intro ct
        simp [defPointOf, a1, a2]
      · intro x hx
        rcases a7 x with e | e
        · exact e.trans hx
        · exact e

/-- C6, on `exNested`: the three type symbols keep their definitions and the
definition of `B`, moved, still occupies one position. -/
theorem flattenClasses_preserves_witness :
    wellFormed exNested = true ∧ occurrences exNested.blocks 1 = 1 ∧
    ∃ q, flattenClasses exNested = some q ∧ q.syms = exNested.syms ∧
      q.types = exNested.types ∧ defPointOf q 1 = defPointOf exNested 1 ∧
      occurrences q.blocks 1 = 1 := by
  obtain ⟨q, hq⟩ := (flattenClasses_preserves exNested).1 (by decide)
  obtain ⟨h1, h2, _, _, h5, h6⟩ := (flattenClasses_preserves exNested).2 q hq
  exact ⟨by decide, by decide, q, hq, h1, h2, h5 1, h6 1 (by decide)⟩

/-! ## Where a relocated definition ends up -/

theorem mem_moveBlocks_of_ne {bs : List (List Nat)} {b d x j : Nat} (hxd : x ≠ d) :
    (∃ body, (moveBlocks bs b d)[j]? = some body ∧ x ∈ body) ↔
      ∃ body, bs[j]? = some body ∧ x ∈ body := by
  rw [getElem?_moveBlocks]
  by_cases hj : j = b
  · subst hj
    cases hb : bs[j]? with
    | none => simp
    | some body => simp [hxd]
  · cases hb : bs[j]? with
    | none => simp [hj]
    | some body => simp [hj, hxd]

theorem onlyIn_moveBlocks {bs : List (List Nat)} {b d : Nat} (hb : b < bs.length) :
    OnlyIn (moveBlocks bs b d) d b := by
  constructor
  · refine ⟨(bs[b]).filter (fun x => decide (x ≠ d)) ++ [d], ?_, by simp⟩
    rw [getElem?_moveBlocks]
    simp [List.getElem?_eq_getElem hb]
  · intro j body hj hmem
    by_contra hne
    rw [getElem?_moveBlocks] at hj
    simp only [hne, if_false] at hj
    cases hbj : bs[j]? with
    | none => simp [hbj] at hj
    | some body0 =>
      simp only [hbj, Option.map_some', Option.some.injEq] at hj
      subst hj
      simp at hmem

theorem onlyIn_moveBlocks_of_onlyIn {bs : List (List Nat)} {b d x i : Nat}
    (h : OnlyIn bs x i) (hc : d = x → b = i) : OnlyIn (moveBlocks bs b d) x i := by
  by_cases hdx : d = x
  · subst hdx
    have hbi := hc rfl
    subst hbi
    obtain ⟨⟨body, hb, _⟩, _⟩ := h
    exact onlyIn_moveBlocks (List.getElem?_eq_some_iff.1 hb).1
  · have hxd : x ≠ d := fun e => hdx e.symm
    constructor
    · exact (mem_moveBlocks_of_ne hxd).2 h.1
    · intro j body hj hmem
      obtain ⟨body0, hb0, hm0⟩ := (mem_moveBlocks_of_ne hxd).1 ⟨body, hj, hmem⟩
      exact h.2 j body0 hb0 hm0

theorem length_applyMoves :
    ∀ (mv : List (Nat × Nat)) (bs : List (List Nat)), (applyMoves bs mv).length = bs.length := by
  intro mv
  induction mv with
  | nil => intro bs; rfl
  | cons hd rest ih =>
    intro bs
    obtain ⟨b, d⟩ := hd
    simp only [applyMoves, ih, length_moveBlocks]

theorem applyMoves_onlyIn {x i : Nat} :
    ∀ (mv : List (Nat × Nat)) (bs : List (List Nat)), OnlyIn bs x i →
      (∀ bd ∈ mv, bd.2 = x → bd.1 = i) → OnlyIn (applyMoves bs mv) x i := by
  intro mv
  induction mv with
  | nil => intro bs h _; exact h
  | cons hd rest ih =>
    intro bs h hc
    obtain ⟨b, d⟩ := hd
    simp only [applyMoves]
    apply ih
    · exact onlyIn_moveBlocks_of_onlyIn h (hc (b, d) (List.mem_cons_self _ _))
    · intro bd hbd
      exact hc bd (List.mem_cons_of_mem _ hbd)

theorem applyMoves_places {b d : Nat} :
    ∀ (mv : List (Nat × Nat)) (bs : List (List Nat)), (b, d) ∈ mv → b < bs.length →
      (∀ bd ∈ mv, bd.2 = d → bd.1 = b) → OnlyIn (applyMoves bs mv) d b := by
  intro mv
  induction mv with
  | nil => intro bs h; simp at h
  | cons hd rest ih =>
    intro bs hmem hlt hc
    obtain ⟨b0, d0⟩ := hd
    simp only [applyMoves]
    have hc2 : ∀ bd ∈ rest, bd.2 = d → bd.1 = b :=
      fun bd hbd => hc bd (List.mem_cons_of_mem _ hbd)
    rcases List.mem_cons.1 hmem with heq | hin
    · cases heq
      exact applyMoves_onlyIn rest _ (onlyIn_moveBlocks hlt) hc2
    · exact ih _ hin (by rw [length_moveBlocks]; exact hlt) hc2

theorem moveOf_eq_some {p : Program} {ct b d : Nat} (h : moveOf p ct = some (b, d)) :
    blockOf p ct = some b ∧ defPointOf p ct = some d := by
  unfold moveOf at h
  split at h
  · simp only [Option.some.injEq, Prod.mk.injEq] at h
    obtain ⟨rfl, rfl⟩ := h
    exact ⟨by assumption, by assumption⟩
  · simp at h

theorem blockOf_congr {p : Program} {c1 c2 : Nat}
    (h : defPointOf p c1 = defPointOf p c2) : blockOf p c1 = blockOf p c2 := by
  simp [blockOf, getModule_congr h]

theorem moves_consistent (p : Program) (cs : List Nat) {b d : Nat} {ct : Nat}
    (hb : blockOf p ct = some b) (hd : defPointOf p ct = some d) :
    ∀ bd ∈ cs.filterMap (moveOf p), bd.2 = d → bd.1 = b := by
  intro bd hbd hd2
  obtain ⟨c, _, hc⟩ := List.mem_filterMap.1 hbd
  obtain ⟨b2, d2⟩ := bd
  obtain ⟨hb2, hd2c⟩ := moveOf_eq_some hc
  simp only at hd2
  subst hd2
  have := blockOf_congr (hd2c.trans hd.symm)
  rw [hb2, hb] at this
  exact Option.some.inj this

/-- C8: on a well-formed tree the pass returns, and the definition of every
collected type is then an element of the top-level block of the Module that
its parent chain reaches in the original tree, an element of no other block
(not of the body of an outer type, moved or not), and has that Module as its
parent symbol. -/
theorem flattenClasses_places (p : Program) (hwf : wellFormed p = true) :
    ∃ cs q, all_nested_classes p = some cs ∧ flattenClasses p = some q ∧
      ∀ ct ∈ cs, ∃ m msy b d, getModule p ct = some m ∧ p.syms[m]? = some msy ∧
        msy.isModule = true ∧ msy.block = some b ∧ defPointOf p ct = some d ∧
        OnlyIn q.blocks d b ∧ parentSymbolOf q d = some m := by
  obtain ⟨cs, q, hcs, hq, _, hblocks, hplaced, _⟩ := flattenClasses_run hwf
  refine ⟨cs, q, hcs, hq, ?_⟩
  intro ct hct
  obtain ⟨m, b, hm, hb, hlt⟩ := resolvable_iff.1 (collected_resolvable hwf hcs ct hct)
  obtain ⟨d, dx, hd, _, hwalk⟩ := getModule_some hm
  obtain ⟨msy, hms, hmod⟩ := getModuleSym_isModule p _ _ _ hwalk
  have hblk : msy.block = some b := by simpa [blockOf, hm, hms] using hb
  obtain ⟨d2, m2, hd2, hm2, hpar⟩ := hplaced ct hct
  rw [hd] at hd2
  rw [hm] at hm2
  cases hd2
  cases hm2
  refine ⟨m, msy, b, d, hm, hms, hmod, hblk, hd, ?_, hpar⟩
  rw [hblocks]
  apply applyMoves_places _ _ _ hlt (moves_consistent p cs hb hd)
  exact List.mem_filterMap.2 ⟨ct, hct, by simp [moveOf, hb, hd]⟩

/-- C8, on `exNested`: the definition of `C` (node 2), nested two levels deep,
ends in the top-level block of `M` (block 0) and nowhere else, after the
definition of its outer type `B` was moved. -/
theorem flattenClasses_places_witness :
    wellFormed exNested = true ∧
    ∃ cs q, all_nested_classes exNested = some cs ∧ flattenClasses exNested = some q ∧
      ∀ ct ∈ cs, ∃ m msy b d, getModule exNested ct = some m ∧
        exNested.syms[m]? = some msy ∧ msy.isModule = true ∧ msy.block = some b ∧
        defPointOf exNested ct = some d ∧ OnlyIn q.blocks d b ∧ parentSymbolOf q d = some m :=
  ⟨by decide, flattenClasses_places exNested (by decide)⟩

/-! ## The blocks after the pass -/

theorem applyMoves_getElem? :
    ∀ (mv : List (Nat × Nat)) (bs : List (List Nat)) (i : Nat), (mv.map (fun bd => bd.2)).Nodup →
      (applyMoves bs mv)[i]? = (bs[i]?).map (fun body =>
        body.filter (fun x => decide (x ∉ mv.map (fun bd => bd.2))) ++
          (mv.filter (fun bd => decide (bd.1 = i))).map (fun bd => bd.2)) := by
  intro mv
  induction mv with
  | nil => intro bs i _; cases h : bs[i]? <;> simp [applyMoves, h]
  | cons hd rest ih =>
    intro bs i hnd
    obtain ⟨b, d⟩ := hd
    simp only [List.map_cons, List.nodup_cons] at hnd
    obtain ⟨hd1, hnd⟩ := hnd
    simp only [applyMoves]
    rw [ih _ i hnd, getElem?_moveBlocks]
    have hfilter : ∀ body : List Nat,
        (body.filter (fun x => decide (x ≠ d))).filter
            (fun x => decide (x ∉ rest.map (fun bd => bd.2))) =
          body.filter (fun x => decide (x ∉ (d :: rest.map (fun bd => bd.2)))) := by
      intro body
      rw [List.filter_filter]
      apply List.filter_congr
      intro x _
      by_cases hx : x = d <;> simp [hx, hd1]
    by_cases hib : i = b
    · subst hib
      cases hb : bs[i]? with
      | none => simp
      | some body =>
        simp only [if_true, Option.map_some', Option.some.injEq, List.filter_append, hfilter,
          List.map_cons, List.filter_cons, decide_True, List.append_assoc]
        congr 1
        have : decide (d ∉ rest.map (fun bd => bd.2)) = true := by simpa using hd1
        simp [this]
    · cases hb : bs[i]? with
      | none => simp [hib]
      | some body =>
        have hne : ¬ b = i := fun e => hib e.symm
        simp only [hib, if_false, Option.map_some', Option.some.injEq, hfilter, List.map_cons,
          List.filter_cons, hne, decide_False]
        simp

theorem filter_not_mem_self {body ds : List Nat} (h : ∀ x ∈ body, x ∉ ds) :
    body.filter (fun x => decide (x ∉ ds)) = body := by
  apply List.filter_eq_self.2
  intro x hx
  simpa using h x hx

/-- C1, as stated, fails on `exFieldFirst`: the top level of `M` is `[A]`, the
body of `A` is `[B, x]`, the body of `B` is `[C]`, the definition of `B` (node 1)
is enumerated before that of `C` (node 2); the field `x` of type `C` is
enumerated first, `C` is discovered before `B`, and the top level of `M`
becomes `[A, C, B]`. -/
theorem flattenClasses_nested_counterexample :
    wellFormed exFieldFirst = true ∧ linked exFieldFirst = true ∧
    topLevelOwned exFieldFirst = true ∧
    exFieldFirst.blocks = [[0], [1, 3], [2]] ∧
    List.indexOf (BaseAST.ofExpr 1) exFieldFirst.gAsts <
      List.indexOf (BaseAST.ofExpr 2) exFieldFirst.gAsts ∧
    all_nested_classes exFieldFirst = some [2, 1] ∧
    (flattenClasses exFieldFirst).map (fun q => q.blocks) = some [[0, 2, 1], [3], []] := by
  decide

/-- C1, amended: when the top-level block of `M` is `[A]`, the body of `A` is
`B :: fa`, the body of `B` is `C :: fb` (every node at one position), and the
scan discovers `B`, then `C`, and nothing else, one run of the pass returns a
tree where the top level of `M` is `[A, B, C]`, the body of `A` is `fa` and the
body of `B` is `fb`. -/
theorem flattenClasses_nested (p : Program) (M bM bA bB tB tC dA dB dC : Nat)
    (fa fb : List Nat)
    (hscan : all_nested_classes p = some [tB, tC])
    (hmB : getModule p tB = some M) (hmC : getModule p tC = some M)
    (hbB : blockOf p tB = some bM) (hbC : blockOf p tC = some bM)
    (hdB : defPointOf p tB = some dB) (hdC : defPointOf p tC = some dC)
    (htop : p.blocks[bM]? = some [dA])
    (hA : p.blocks[bA]? = some (dB :: fa)) (hB : p.blocks[bB]? = some (dC :: fb))
    (hnd : (dA :: dB :: fa ++ dC :: fb).Nodup) :
    ∃ q, flattenClasses p = some q ∧ q.blocks[bM]? = some [dA, dB, dC] ∧
      q.blocks[bA]? = some fa ∧ q.blocks[bB]? = some fb ∧
      parentSymbolOf q dB = some M ∧ parentSymbolOf q dC = some M := by
  have hlt : bM < p.blocks.length := (List.getElem?_eq_some_iff.1 htop).1
  have hres : ∀ ct ∈ [tB, tC], resolvable p ct = true := by
    intro ct hct
    simp only [List.mem_cons, List.mem_singleton, List.not_mem_nil, or_false] at hct
    rcases hct with rfl | rfl
    · exact resolvable_iff.2 ⟨M, bM, hmB, hbB, hlt⟩
    · exact resolvable_iff.2 ⟨M, bM, hmC, hbC, hlt⟩
  obtain ⟨q, hq, _, hblocks, _, hplaced, _⟩ :=
    relocateAll_evolves p [tB, tC] p (Evolves.refl p) hres
  have hmv : [tB, tC].filterMap (moveOf p) = [(bM, dB), (bM, dC)] := by
    simp [moveOf, hbB, hbC, hdB, hdC]
  rw [hmv] at hblocks
  simp only [List.cons_append, List.nodup_cons, List.mem_cons, List.mem_append, not_or,
    List.nodup_append] at hnd
  obtain ⟨⟨hAB, hAfa, hAC, hAfb⟩, ⟨hBfa, hBC, hBfb⟩, hfa, ⟨hCfb, hfb⟩, hdisj⟩ := hnd
  have hCfa : dC ∉ fa := fun h => hdisj h (List.mem_cons_self _ _)
  have hnd2 : (([(bM, dB), (bM, dC)] : List (Nat × Nat)).map (fun bd => bd.2)).Nodup := by
    simp [hBC]
  have key := fun i => applyMoves_getElem? [(bM, dB), (bM, dC)] p.blocks i hnd2
  have hMA : bM ≠ bA := by
    intro e
    rw [e, hA] at htop
    simp only [Option.some.injEq, List.cons.injEq] at htop
    exact hAB htop.1.symm
  have hMB : bM ≠ bB := by
    intro e
    rw [e, hB] at htop
    simp only [Option.some.injEq, List.cons.injEq] at htop
    exact hAC htop.1.symm
  have hBq : parentSymbolOf q dB = some M := by
    obtain ⟨d, m, h1, h2, h3⟩ := hplaced tB (by simp)
    rw [hdB] at h1
    rw [hmB] at h2
    cases h1
    cases h2
    exact h3
  have hCq : parentSymbolOf q dC = some M := by
    obtain ⟨d, m, h1, h2, h3⟩ := hplaced tC (by simp)
    rw [hdC] at h1
    rw [hmC] at h2
    cases h1
    cases h2
    exact h3
  refine ⟨q, by simp [flattenClasses, hscan, hq], ?_, ?_, ?_, hBq, hCq⟩
  · rw [hblocks, key bM, htop]
    simp [hAB, hAC]
  · rw [hblocks, key bA, hA]
    have hfa2 : ∀ a ∈ fa, ¬ a = dB ∧ ¬ a = dC :=
      fun x hx => ⟨fun e => hBfa (e ▸ hx), fun e => hCfa (e ▸ hx)⟩
    simpa [hMA] using hfa2
  · rw [hblocks, key bB, hB]
    have hfb2 : ∀ a ∈ fb, ¬ a = dB ∧ ¬ a = dC :=
      fun x hx => ⟨fun e => hBfb (e ▸ hx), fun e => hCfb (e ▸ hx)⟩
    simpa [hMB, Ne.symm hBC] using hfb2

/-- C1, amended, on `exNested`: `M.top_level = [A, B, C]`, `A.body = [x]`,
`B.body = []`. -/
theorem flattenClasses_nested_witness :
    ∃ q, flattenClasses exNested = some q ∧ q.blocks[0]? = some [0, 1, 2] ∧
      q.blocks[1]? = some [3] ∧ q.blocks[2]? = some [] ∧
      parentSymbolOf q 1 = some 0 ∧ parentSymbolOf q 2 = some 0 :=
  flattenClasses_nested exNested 0 0 1 2 1 2 0 1 2 [3] [] (by decide) (by decide) (by decide)
    (by decide) (by decide) (by decide) (by decide) (by decide) (by decide) (by decide)
    (by decide)

/-! ## Linked and owned: the tree invariants behind the order of a block -/

theorem linked_spec {p : Program} (h : linked p = true) {ct : Nat} {ty : TypeNode}
    (hty : p.types[ct]? = some ty) (hc : ty.isClassType = true) :
    ∃ s sy d dx, ty.symbol = some s ∧ p.syms[s]? = some sy ∧ sy.type = some ct ∧
      sy.defPoint = some d ∧ p.exprs[d]? = some dx ∧ dx.isDefExpr = true ∧
      dx.sym = some s ∧ BaseAST.ofExpr d ∈ p.gAsts := by
  have hlt : ct < p.types.length := (List.getElem?_eq_some_iff.1 hty).1
  have h1 : linkedAt p ct = true := by
    simp only [linked, List.all_eq_true, List.mem_range] at h
    exact h ct hlt
  unfold linkedAt at h1
  simp only [hty, hc, Bool.not_true, Bool.false_or] at h1
  cases hs : ty.symbol with
  | none => simp [hs] at h1
  | some s =>
    simp only [hs] at h1
    cases hsy : p.syms[s]? with
    | none => simp [hsy] at h1
    | some sy =>
      simp only [hsy, Bool.and_eq_true, decide_eq_true_eq] at h1
      obtain ⟨ht, h2⟩ := h1
      cases hd : sy.defPoint with
      | none => simp [hd] at h2
      | some d =>
        simp only [hd] at h2
        cases hx : p.exprs[d]? with
        | none => simp [hx] at h2
        | some dx =>
          simp only [hx, Bool.and_eq_true, decide_eq_true_eq] at h2
          exact ⟨s, sy, d, dx, rfl, hsy, ht, hd, hx, h2.1.1, h2.1.2, h2.2⟩

theorem defPointOf_of_linked {p : Program} {ct : Nat} {ty : TypeNode} {s d : Nat} {sy : Symbol}
    (hty : p.types[ct]? = some ty) (hs : ty.symbol = some s) (hsy : p.syms[s]? = some sy)
    (hd : sy.defPoint = some d) : defPointOf p ct = some d := by
  simp [defPointOf, hty, hs, hsy, hd]

theorem defPointOf_injective {p : Program} (h : linked p = true) {c1 c2 d : Nat}
    (k1 : toClassType p (some c1) = some (some c1))
    (k2 : toClassType p (some c2) = some (some c2))
    (h1 : defPointOf p c1 = some d) (h2 : defPointOf p c2 = some d) : c1 = c2 := by
  obtain ⟨_, ty1, hty1, hc1⟩ := toClassType_some_some k1
  obtain ⟨_, ty2, hty2, hc2⟩ := toClassType_some_some k2
  obtain ⟨s1, sy1, d1, dx1, a1, a2, a3, a4, a5, _, a7, _⟩ := linked_spec h hty1 hc1
  obtain ⟨s2, sy2, d2, dx2, b1, b2, b3, b4, b5, _, b7, _⟩ := linked_spec h hty2 hc2
  rw [defPointOf_of_linked hty1 a1 a2 a4] at h1
  rw [defPointOf_of_linked hty2 b1 b2 b4] at h2
  cases h1
  cases h2
  rw [a5] at b5
  cases b5
  rw [a7] at b7
  cases b7
  rw [a2] at b2
  cases b2
  rw [a3] at b3
  exact Option.some.inj b3

theorem topLevelOwned_spec {p : Program} (h : topLevelOwned p = true) {m b : Nat} {msy : Symbol}
    (hm : p.syms[m]? = some msy) (hmod : msy.isModule = true) (hb : msy.block = some b) :
    (∀ body, p.blocks[b]? = some body → ∀ x ∈ body, parentSymbolOf p x = some m) ∧
    (∀ m2 sy2, p.syms[m2]? = some sy2 → sy2.isModule = true → sy2.block = some b → m2 = m) := by
  have hlt : m < p.syms.length := (List.getElem?_eq_some_iff.1 hm).1
  have h1 : ownsTopLevel p m = true := by
    simp only [topLevelOwned, List.all_eq_true, List.mem_range] at h
    exact h m hlt
  unfold ownsTopLevel at h1
  simp only [hm, hmod, Bool.not_true, Bool.false_or, hb, Bool.and_eq_true, List.all_eq_true,
    List.mem_range] at h1
  obtain ⟨h2, h3⟩ := h1
  constructor
  · intro body hbody x hx
    simp only [hbody, List.all_eq_true, decide_eq_true_eq] at h2
    exact h2 x hx
  · intro m2 sy2 hs2 hmod2 hb2
    have hlt2 : m2 < p.syms.length := (List.getElem?_eq_some_iff.1 hs2).1
    have := h3 m2 hlt2
    simp only [hs2, hmod2, Bool.not_true, Bool.false_or, decide_eq_true_eq] at this
    exact this hb2

theorem outerOf_of_parent {p : Program} {ct d ps : Nat} {psy : Symbol}
    (hd : defPointOf p ct = some d) (hp : parentSymbolOf p d = some ps)
    (hs : p.syms[ps]? = some psy) : outerOf p ct = toClassType p psy.type := by
  unfold parentSymbolOf at hp
  unfold outerOf
  cases hx : p.exprs[d]? with
  | none => simp [hx] at hp
  | some dx =>
    simp only [hx] at hp
    simp [hd, hx, hp, hs]

theorem outerOf_some {p : Program} {ct : Nat} {r : Option Nat} (h : outerOf p ct = some r) :
    ∃ d ps psy, defPointOf p ct = some d ∧ parentSymbolOf p d = some ps ∧
      p.syms[ps]? = some psy ∧ toClassType p psy.type = some r := by
  unfold outerOf at h
  cases hd : defPointOf p ct with
  | none => simp [hd] at h
  | some d =>
    simp only [hd] at h
    cases hx : p.exprs[d]? with
    | none => simp [hx] at h
    | some dx =>
      simp only [hx] at h
      cases hp : dx.parentSymbol with
      | none => simp [hp] at h
      | some ps =>
        simp only [hp] at h
        cases hs : p.syms[ps]? with
        | none => simp [hs] at h
        | some psy =>
          simp only [hs] at h
          exact ⟨d, ps, psy, rfl, by simp [parentSymbolOf, hx, hp], hs, h⟩

theorem moves_nodup (p : Program) :
    ∀ cs : List Nat, cs.Nodup →
      (∀ c1 ∈ cs, ∀ c2 ∈ cs, ∀ d, defPointOf p c1 = some d → defPointOf p c2 = some d → c1 = c2) →
      ((cs.filterMap (moveOf p)).map (fun bd => bd.2)).Nodup := by
  intro cs
  induction cs with
  | nil => intro _ _; simp
  | cons c rest ih =>
    intro hnd hinj
    have hrest := ih (List.nodup_cons.1 hnd).2
      (fun c1 h1 c2 h2 => hinj c1 (List.mem_cons_of_mem _ h1) c2 (List.mem_cons_of_mem _ h2))
    cases hm : moveOf p c with
    | none => simpa [List.filterMap_cons, hm] using hrest
    | some bd =>
      obtain ⟨b, d⟩ := bd
      simp only [List.filterMap_cons, hm, List.map_cons, List.nodup_cons]
      refine ⟨?_, hrest⟩
      intro hmem
      obtain ⟨bd2, hbd2, hd2⟩ := List.mem_map.1 hmem
      obtain ⟨c2, hc2, hmv2⟩ := List.mem_filterMap.1 hbd2
      obtain ⟨b2, d2⟩ := bd2
      simp only at hd2
      subst hd2
      have e := hinj c (List.mem_cons_self _ _) c2 (List.mem_cons_of_mem _ hc2) d2
        (moveOf_eq_some hm).2 (moveOf_eq_some hmv2).2
      subst e
      exact (List.nodup_cons.1 hnd).1 hc2

theorem moves_tail (p : Program) (b m : Nat) :
    ∀ cs : List Nat,
      (∀ ct ∈ cs, resolvable p ct = true ∧ (blockOf p ct = some b ↔ getModule p ct = some m)) →
      ((cs.filterMap (moveOf p)).filter (fun bd => decide (bd.1 = b))).map (fun bd => bd.2) =
        (cs.filter (fun ct => decide (getModule p ct = some m))).filterMap (defPointOf p) := by
  intro cs
  induction cs with
  | nil => intro _; rfl
  | cons c rest ih =>
    intro h
    have hrest := ih (fun ct hct => h ct (List.mem_cons_of_mem _ hct))
    obtain ⟨hres, hiff⟩ := h c (List.mem_cons_self _ _)
    obtain ⟨m2, b2, hm2, hb2, _⟩ := resolvable_iff.1 hres
    obtain ⟨d, _, hd, _, _⟩ := getModule_some hm2
    have hmv : moveOf p c = some (b2, d) := by simp [moveOf, hb2, hd]
    by_cases hb : b2 = b
    · subst hb
      have hmm := hiff.1 hb2
      simp [List.filterMap_cons, hmv, List.filter_cons, hmm, hd, hrest]
    · have hmm : ¬ getModule p c = some m := fun e => hb (Option.some.inj (hb2.symm.trans (hiff.2 e)))
      simp [List.filterMap_cons, hmv, List.filter_cons, hmm, hb, hrest]

theorem collected_class {p : Program} {cs : List Nat} (h : all_nested_classes p = some cs)
    {ct : Nat} (hct : ct ∈ cs) :
    toClassType p (some ct) = some (some ct) ∧ ∃ o, outerOf p ct = some (some o) := by
  obtain ⟨a, _, hia⟩ := (mem_all_nested_classes h ct).1 hct
  obtain ⟨_, _, _, hc, ho⟩ := (isInnerClass_eq_some_iff p a ct).1 hia
  exact ⟨hc, ho⟩

theorem module_not_outer {p : Program} (hwf : wellFormed p = true) {m : Nat} {msy : Symbol}
    (hm : p.syms[m]? = some msy) (hmod : msy.isModule = true) :
    toClassType p msy.type = some none := by
  have := ((wellFormed_iff.1 hwf).2.1 msy (List.getElem?_mem hm)).2
  simpa [moduleNotClass, hmod] using this

/-- C4: on a well-formed tree whose types and definitions are linked and whose
Modules own their top-level blocks, the pass returns, and the top-level block
of every Module is then its original sequence, unchanged, followed by the
definitions of the collected types that the Module owns, in the order of the
collected sequence (the order of first discovery). -/
theorem flattenClasses_order (p : Program) (hwf : wellFormed p = true)
    (hl : linked p = true) (ho : topLevelOwned p = true) :
    ∃ cs q, all_nested_classes p = some cs ∧ flattenClasses p = some q ∧
      cs = firstOccurrences (detected p p.gAsts) ∧
      ∀ m msy b body, p.syms[m]? = some msy → msy.isModule = true → msy.block = some b →
        p.blocks[b]? = some body →
        q.blocks[b]? = some (body ++
          (cs.filter (fun ct => decide (getModule p ct = some m))).filterMap (defPointOf p)) := by
  obtain ⟨cs, q, hcs, hq, _, hblocks, _, _⟩ := flattenClasses_run hwf
  refine ⟨cs, q, hcs, hq, all_nested_classes_eq hcs, ?_⟩
  intro m msy b body hm hmod hb hbody
  have hnd : ((cs.filterMap (moveOf p)).map (fun bd => bd.2)).Nodup := by
    apply moves_nodup p cs ((all_nested_classes_eq hcs) ▸ nodup_firstOccurrences _)
    intro c1 h1 c2 h2 d hd1 hd2
    exact defPointOf_injective hl (collected_class hcs h1).1 (collected_class hcs h2).1 hd1 hd2
  obtain ⟨hown, huniq⟩ := topLevelOwned_spec ho hm hmod hb
  have htail := moves_tail p b m cs (fun ct hct => by
    have hres := collected_resolvable hwf hcs ct hct
    refine ⟨hres, ?_⟩
    obtain ⟨m2, b2, hm2, hb2, _⟩ := resolvable_iff.1 hres
    obtain ⟨_, _, _, _, hwalk⟩ := getModule_some hm2
    obtain ⟨msy2, hms2, hmod2⟩ := getModuleSym_isModule p _ _ _ hwalk
    have hblk2 : msy2.block = some b2 := by simpa [blockOf, hm2, hms2] using hb2
    constructor
    · intro e
      rw [hb2] at e
      cases e
      rw [hm2, huniq m2 msy2 hms2 hmod2 hblk2]
    · intro e
      rw [hm2] at e
      cases e
      rw [hms2] at hm
      cases hm
      rw [hb2, ← hblk2, hb])
  have hkeep : ∀ x ∈ body, x ∉ (cs.filterMap (moveOf p)).map (fun bd => bd.2) := by
    intro x hx hmem
    obtain ⟨bd, hbd, hd2⟩ := List.mem_map.1 hmem
    obtain ⟨ct, hct, hmv⟩ := List.mem_filterMap.1 hbd
    obtain ⟨b2, d2⟩ := bd
    simp only at hd2
    subst hd2
    obtain ⟨_, o, hout⟩ := collected_class hcs hct
    have hpar := hown body hbody d2 hx
    rw [outerOf_of_parent (moveOf_eq_some hmv).2 hpar hm, module_not_outer hwf hm hmod] at hout
    simp at hout
  rw [hblocks, applyMoves_getElem? _ _ _ hnd, hbody]
  simp only [Option.map_some', filter_not_mem_self hkeep, htail]

/-- C4, on `exNested`: the top level of `M`, `[A]`, becomes `[A, B, C]`. -/
theorem flattenClasses_order_witness :
    wellFormed exNested = true ∧ linked exNested = true ∧ topLevelOwned exNested = true ∧
    ∃ cs q, all_nested_classes exNested = some cs ∧ flattenClasses exNested = some q ∧
      cs = firstOccurrences (detected exNested exNested.gAsts) ∧
      ∀ m msy b body, exNested.syms[m]? = some msy → msy.isModule = true →
        msy.block = some b → exNested.blocks[b]? = some body →
        q.blocks[b]? = some (body ++
          (cs.filter (fun ct => decide (getModule exNested ct = some m))).filterMap
            (defPointOf exNested)) :=
  ⟨by decide, by decide, by decide,
    flattenClasses_order exNested (by decide) (by decide) (by decide)⟩

/-! ## After the pass nothing is nested in an aggregate -/

theorem Evolves.getElem?_exprs_none {p q : Program} (e : Evolves p q) {d : Nat}
    (h : p.exprs[d]? = none) : q.exprs[d]? = none := by
  rw [List.getElem?_eq_none_iff] at h ⊢
  rw [e.nexprs]
  exact h

theorem Evolves.toDefExpr_eq {p q : Program} (e : Evolves p q) (a : BaseAST) :
    toDefExpr q a = toDefExpr p a := by
  cases a with
  | ofSymbol s => rfl
  | ofType t => rfl
  | ofExpr d =>
    unfold toDefExpr
    cases hx : p.exprs[d]? with
    | none => simp [e.getElem?_exprs_none hx, hx]
    | some dx =>
      obtain ⟨dy, hy, hdef, _, _⟩ := e.expr d dx hx
      simp [hy, hdef, hx]

theorem Evolves.defSymType_eq {p q : Program} (e : Evolves p q) (d : Nat) :
    defSymType q d = defSymType p d := by
  unfold defSymType
  cases hx : p.exprs[d]? with
  | none => simp [e.getElem?_exprs_none hx, hx]
  | some dx =>
    obtain ⟨dy, hy, _, hsym, _⟩ := e.expr d dx hx
    simp [hy, hsym, e.syms, hx]

theorem Evolves.toClassType_eq {p q : Program} (e : Evolves p q) (t : Option Nat) :
    toClassType q t = toClassType p t := by
  simp [toClassType, e.types]

theorem Evolves.parent {p q : Program} (e : Evolves p q) {d ps : Nat}
    (h : parentSymbolOf p d = some ps) :
    parentSymbolOf q d = some ps ∨
      ∃ m msy, parentSymbolOf q d = some m ∧ p.syms[m]? = some msy ∧ msy.isModule = true := by
  unfold parentSymbolOf at h ⊢
  cases hx : p.exprs[d]? with
  | none => simp [hx] at h
  | some dx =>
    simp only [hx] at h
    obtain ⟨dy, hy, _, _, hpar⟩ := e.expr d dx hx
    simp only [hy]
    rcases hpar with hsame | ⟨m, hm, hwalk⟩
    · left
      rw [hsame, h]
    · right
      obtain ⟨msy, hms, hmod⟩ := getModuleSym_isModule p _ _ _ hwalk
      exact ⟨m, msy, hm, hms, hmod⟩

theorem outerOf_placed {p q : Program} (hwf : wellFormed p = true) (e : Evolves p q) {ct : Nat}
    (h : PlacedAt p q ct) : outerOf q ct = some none := by
  obtain ⟨d, m, hd, hm, hpar⟩ := h
  obtain ⟨_, _, _, _, hwalk⟩ := getModule_some hm
  obtain ⟨msy, hms, hmod⟩ := getModuleSym_isModule p _ _ _ hwalk
  have hms2 : q.syms[m]? = some msy := by rw [e.syms]; exact hms
  rw [outerOf_of_parent ((e.defPointOf_eq ct).trans hd) hpar hms2, e.toClassType_eq]
  exact module_not_outer hwf hms hmod

theorem outerOf_kept {p q : Program} (hwf : wellFormed p = true) (e : Evolves p q) {ct : Nat}
    (h : outerOf p ct = some none) : outerOf q ct = some none := by
  obtain ⟨d, ps, psy, hd, hpar, hs, hc⟩ := outerOf_some h
  rcases e.parent hpar with hsame | ⟨m, msy, hm, hms, hmod⟩
  · have hs2 : q.syms[ps]? = some psy := by rw [e.syms]; exact hs
    rw [outerOf_of_parent ((e.defPointOf_eq ct).trans hd) hsame hs2, e.toClassType_eq]
    exact hc
  · have hms2 : q.syms[m]? = some msy := by rw [e.syms]; exact hms
    rw [outerOf_of_parent ((e.defPointOf_eq ct).trans hd) hm hms2, e.toClassType_eq]
    exact module_not_outer hwf hms hmod

theorem isInnerClass_after {p q : Program} (hwf : wellFormed p = true) (e : Evolves p q)
    {cs : List Nat} (hcs : all_nested_classes p = some cs) (hpl : ∀ ct ∈ cs, PlacedAt p q ct)
    {a : BaseAST} (ha : a ∈ p.gAsts) : isInnerClass q a = some none := by
  obtain ⟨r, hr⟩ := isInnerClass_total hwf ha
  unfold isInnerClass
  rw [e.toDefExpr_eq]
  unfold isInnerClass at hr
  cases hd : toDefExpr p a with
  | none => simp [hd] at hr
  | some od =>
    cases od with
    | none => rfl
    | some d =>
      simp only [hd] at hr ⊢
      rw [e.defSymType_eq]
      cases ht : defSymType p d with
      | none => simp [ht] at hr
      | some t =>
        simp only [ht] at hr ⊢
        rw [e.toClassType_eq]
        cases hc : toClassType p t with
        | none => simp [hc] at hr
        | some oc =>
          cases oc with
          | none => rfl
          | some ct =>
            simp only [hc] at hr ⊢
            cases ho : outerOf p ct with
            | none => simp [ho] at hr
            | some oo =>
              cases oo with
              | none => simp [outerOf_kept hwf e ho]
              | some o =>
                have hin : isInnerClass p a = some (some ct) := by
                  simp [isInnerClass, hd, ht, hc, ho]
                have hmem : ct ∈ cs := (mem_all_nested_classes hcs ct).2 ⟨a, ha, hin⟩
                simp [outerOf_placed hwf e (hpl ct hmem)]

/-- C2: on a well-formed tree the pass returns a tree, and the pass run on that
tree returns it as it is: running the pass twice yields the tree that running
it once yields. -/
theorem flattenClasses_idempotent (p : Program) (hwf : wellFormed p = true) :
    (∃ q, flattenClasses p = some q ∧ flattenClasses q = some q) ∧
    (flattenClasses p).bind flattenClasses = flattenClasses p := by
  obtain ⟨cs, q, hcs, hq, e, _, hpl, _⟩ := flattenClasses_run hwf
  have hflat : ∀ a ∈ q.gAsts, isInnerClass q a = some none := by
    intro a ha
    rw [e.gAsts] at ha
    exact isInnerClass_after hwf e hcs hpl ha
  have h2 : flattenClasses q = some q := (flattenClasses_of_flat q hflat).2
  exact ⟨⟨q, hq, h2⟩, by simp [hq, h2]⟩

/-- C2, on `exNested`. -/
theorem flattenClasses_idempotent_witness :
    wellFormed exNested = true ∧
    (∃ q, flattenClasses exNested = some q ∧ flattenClasses q = some q) ∧
    (flattenClasses exNested).bind flattenClasses = flattenClasses exNested :=
  ⟨by decide, flattenClasses_idempotent exNested (by decide)⟩

/-- C3, as stated, fails on `exLocal`, a well-formed tree: the type `L` is
defined in the body of the function `f`; after the pass the parent symbol of
its definition (node 1) is still `f` (symbol 1), which is not a Module. -/
theorem flattenClasses_local_counterexample :
    wellFormed exLocal = true ∧ linked exLocal = true ∧
    defPointOf exLocal 0 = some 1 ∧
    (flattenClasses exLocal).map (fun q => parentSymbolOf q 1) = some (some 1) ∧
    (exLocal.syms[1]?).map (fun sy => sy.isModule) = some false := by
  decide

/-- C3, amended: on a well-formed tree with linked types and definitions, after
one run of the pass the detector classifies no enumerated node as inner, and
the parent symbol of the definition point of every aggregate type has no
aggregate type: no type remains nested inside an aggregate type.  The parent
symbol is the owning Module for a collected type and is unchanged for any
other (a type defined inside a function stays there). -/
theorem flattenClasses_complete (p : Program) (hwf : wellFormed p = true)
    (hl : linked p = true) :
    ∃ cs q, all_nested_classes p = some cs ∧ flattenClasses p = some q ∧
      (∀ a ∈ q.gAsts, isInnerClass q a = some none) ∧
      (∀ ct ty, q.types[ct]? = some ty → ty.isClassType = true →
        ∃ d ps psy, defPointOf q ct = some d ∧ parentSymbolOf q d = some ps ∧
          q.syms[ps]? = some psy ∧ toClassType q psy.type = some none ∧
          (ct ∈ cs → getModule p ct = some ps ∧ psy.isModule = true) ∧
          (ct ∉ cs → parentSymbolOf p d = some ps)) := by
  obtain ⟨cs, q, hcs, hq, e, _, hpl, hoth⟩ := flattenClasses_run hwf
  have hflat : ∀ a ∈ q.gAsts, isInnerClass q a = some none := by
    intro a ha
    rw [e.gAsts] at ha
    exact isInnerClass_after hwf e hcs hpl ha
  refine ⟨cs, q, hcs, hq, hflat, ?_⟩
  intro ct ty hty hcls
  rw [e.types] at hty
  obtain ⟨s, sy, d, dx, a1, a2, a3, a4, a5, a6, a7, a8⟩ := linked_spec hl hty hcls
  have hdp : defPointOf p ct = some d := defPointOf_of_linked hty a1 a2 a4
  have hnode := hflat (.ofExpr d) (by rw [e.gAsts]; exact a8)
  have hd : toDefExpr p (.ofExpr d) = some (some d) := by simp [toDefExpr, a5, a6]
  have ht : defSymType p d = some (some ct) := by simp [defSymType, a5, a7, a2, a3]
  have hc : toClassType p (some ct) = some (some ct) := by simp [toClassType, hty, hcls]
  have hout : outerOf q ct = some none := by
    unfold isInnerClass at hnode
    rw [e.toDefExpr_eq, hd] at hnode
    simp only [e.defSymType_eq, ht, e.toClassType_eq, hc] at hnode
    cases ho : outerOf q ct with
    | none => simp [ho] at hnode
    | some oo =>
      cases oo with
      | none => rfl
      | some o => simp [ho] at hnode
  obtain ⟨d2, ps, psy, hd2, hpar, hs, hcl⟩ := outerOf_some hout
  rw [e.defPointOf_eq, hdp] at hd2
  cases hd2
  refine ⟨d, ps, psy, (e.defPointOf_eq ct).trans hdp, hpar, hs, hcl, ?_, ?_⟩
  · intro hmem
    obtain ⟨d3, m, h1, h2, h3⟩ := hpl ct hmem
    rw [hdp] at h1
    cases h1
    rw [hpar] at h3
    cases h3
    refine ⟨h2, ?_⟩
    obtain ⟨_, _, _, _, hwalk⟩ := getModule_some h2
    obtain ⟨msy, hms, hmod⟩ := getModuleSym_isModule p _ _ _ hwalk
    rw [e.syms, hms] at hs
    cases hs
    exact hmod
  · intro hnot
    rw [← hpar]
    symm
    apply hoth
    intro c hc2 hdc
    have hcc := defPointOf_injective hl (collected_class hcs hc2).1 hc hdc hdp
    exact hnot (hcc ▸ hc2)

/-- C3, amended, on `exNested`. -/
theorem flattenClasses_complete_witness :
    wellFormed exNested = true ∧ linked exNested = true ∧
    ∃ cs q, all_nested_classes exNested = some cs ∧ flattenClasses exNested = some q ∧
      (∀ a ∈ q.gAsts, isInnerClass q a = some none) ∧
      (∀ ct ty, q.types[ct]? = some ty → ty.isClassType = true →
        ∃ d ps psy, defPointOf q ct = some d ∧ parentSymbolOf q d = some ps ∧
          q.syms[ps]? = some psy ∧ toClassType q psy.type = some none ∧
          (ct ∈ cs → getModule exNested ct = some ps ∧ psy.isModule = true) ∧
          (ct ∉ cs → parentSymbolOf exNested d = some ps)) :=
  ⟨by decide, by decide, flattenClasses_complete exNested (by decide) (by decide)⟩

/-! ## The host program -/

/-- C11: the external calls of `main`, in order, are `chpl_library_init(argc,
argv)`, then the exported functions `chpl__init_reliesOnGlobal(1, 2)` and
`whatIsGlobal()`, then `chpl_library_finalize()`: the initialization is called
once and first, the finalization once and last, every exported function in
between, and `main` returns 0. -/
theorem Host.main_calls (argc : Int) (argv : List String) :
    (Host.main argc argv []).1 =
      [.chpl_library_init argc argv, .chpl__init_reliesOnGlobal 1 2, .whatIsGlobal,
        .chpl_library_finalize] ∧
    (Host.main argc argv []).2 = 0 ∧
    ((Host.main argc argv []).1.filter ExternCall.isInit).length = 1 ∧
    ((Host.main argc argv []).1.filter ExternCall.isFinalize).length = 1 ∧
    (∃ mid, (Host.main argc argv []).1 =
        [.chpl_library_init argc argv] ++ mid ++ [.chpl_library_finalize] ∧
      (∀ c ∈ mid, c.isExported = true) ∧
      mid = (Host.main argc argv []).1.filter ExternCall.isExported) := by
  refine ⟨rfl, rfl, rfl, rfl, [.chpl__init_reliesOnGlobal 1 2, .whatIsGlobal], rfl, ?_, rfl⟩
  intro c hc
  simp only [List.mem_cons, List.mem_singleton, List.not_mem_nil, or_false] at hc
  rcases hc with rfl | rfl <;> rfl

/-! ## The detector does not fault on a well-formed tree -/

theorem detectorOk_iff {p : Program} :
    detectorOk p = true ↔
      (∀ dx ∈ p.exprs, defHasSym p dx = true) ∧
      (∀ sy ∈ p.syms, typePtrOk p sy = true) ∧
      (∀ ct, ct < p.types.length → classHasParent p ct = true) := by
  simp [detectorOk, List.all_eq_true, and_assoc]

theorem outerOf_total_of_detectorOk {p : Program} (hok : detectorOk p = true) {ct : Nat}
    (hc : toClassType p (some ct) = some (some ct)) : ∃ r, outerOf p ct = some r := by
  obtain ⟨_, ty, hty, hcls⟩ := toClassType_some_some hc
  have hlt : ct < p.types.length := (List.getElem?_eq_some_iff.1 hty).1
  have h := (detectorOk_iff.1 hok).2.2 ct hlt
  unfold classHasParent at h
  simp only [hty, hcls, Bool.not_true, Bool.false_or] at h
  cases hd : defPointOf p ct with
  | none => simp [hd] at h
  | some d =>
    simp only [hd] at h
    cases hp : parentSymbolOf p d with
    | none => simp [hp] at h
    | some ps =>
      simp only [hp, decide_eq_true_eq] at h
      have hs : p.syms[ps]? = some p.syms[ps] := List.getElem?_eq_getElem h
      rw [outerOf_of_parent hd hp hs]
      exact toClassType_total ((detectorOk_iff.1 hok).2.1 _ (List.getElem_mem h))

/-- C14: on a well-formed tree (every definition node has a symbol, no type
pointer dangles, every aggregate type's symbol has a definition point that has
a parent symbol) the detector, applied to any node of the tree, of any kind,
returns a result, a type or nothing: it dereferences no `NULL`. -/
theorem isInnerClass_safe (p : Program) (hok : detectorOk p = true) (a : BaseAST)
    (ha : nodeOk p a = true) : ∃ r, isInnerClass p a = some r := by
  have hw := detectorOk_iff.1 hok
  cases a with
  | ofSymbol s => exact ⟨none, by simp [isInnerClass, toDefExpr]⟩
  | ofType t => exact ⟨none, by simp [isInnerClass, toDefExpr]⟩
  | ofExpr e =>
    have hlt : e < p.exprs.length := by simpa [nodeOk] using ha
    have hx : p.exprs[e]? = some p.exprs[e] := List.getElem?_eq_getElem hlt
    by_cases hdef : (p.exprs[e]).isDefExpr = true
    · have hd : toDefExpr p (.ofExpr e) = some (some e) := by simp [toDefExpr, hx, hdef]
      have hsym := hw.1 _ (List.getElem_mem hlt)
      simp only [defHasSym, hdef, Bool.not_true, Bool.false_or] at hsym
      cases hs : (p.exprs[e]).sym with
      | none => simp [hs] at hsym
      | some s =>
        simp only [hs, decide_eq_true_eq] at hsym
        have hsy : p.syms[s]? = some p.syms[s] := List.getElem?_eq_getElem hsym
        have ht : defSymType p e = some (p.syms[s]).type := by
          simp [defSymType, hx, hs, hsy]
        obtain ⟨r, hr⟩ := toClassType_total (hw.2.1 _ (List.getElem_mem hsym))
        cases r with
        | none => exact ⟨none, by simp [isInnerClass, hd, ht, hr]⟩
        | some ct =>
          have hc : toClassType p (some ct) = some (some ct) := by
            obtain ⟨h1, _⟩ := toClassType_some_some hr
            rw [h1] at hr
            exact hr
          obtain ⟨o, ho⟩ := outerOf_total_of_detectorOk hok hc
          cases o with
          | none => exact ⟨none, by simp [isInnerClass, hd, ht, hr, ho]⟩
          | some o => exact ⟨some ct, by simp [isInnerClass, hd, ht, hr, ho]⟩
    · exact ⟨none, by simp [isInnerClass, toDefExpr, hx, hdef]⟩

/-- C14, on `exRefs`: the detector returns on a definition of a type, on a
definition of a field, on a symbol and on a type. -/
theorem isInnerClass_safe_witness :
    detectorOk exRefs = true ∧
    (∃ r, isInnerClass exRefs (.ofExpr 1) = some r) ∧
    (∃ r, isInnerClass exRefs (.ofExpr 2) = some r) ∧
    (∃ r, isInnerClass exRefs (.ofSymbol 0) = some r) ∧
    (∃ r, isInnerClass exRefs (.ofType 1) = some r) :=
  ⟨by decide, isInnerClass_safe exRefs (by decide) _ (by decide),
    isInnerClass_safe exRefs (by decide) _ (by decide),
    isInnerClass_safe exRefs (by decide) _ (by decide),
    isInnerClass_safe exRefs (by decide) _ (by decide)⟩

/-- C11, for a host started as `prog` with no argument. -/
theorem Host.main_calls_witness :
    (Host.main 1 ["prog"] []).1 =
      [.chpl_library_init 1 ["prog"], .chpl__init_reliesOnGlobal 1 2, .whatIsGlobal,
        .chpl_library_finalize] ∧
    (Host.main 1 ["prog"] []).2 = 0 :=
  ⟨(Host.main_calls 1 ["prog"]).1, (Host.main_calls 1 ["prog"]).2.1⟩

/-! ## The detector on the definition of a variable or field -/

theorem outerOf_eq_some_iff {p : Program} {ct : Nat} {r : Option Nat} :
    outerOf p ct = some r ↔
      ∃ cd ps psy, defPointOf p ct = some cd ∧ parentSymbolOf p cd = some ps ∧
        p.syms[ps]? = some psy ∧ toClassType p psy.type = some r := by
  constructor
  · exact outerOf_some
  · rintro ⟨cd, ps, psy, h1, h2, h3, h4⟩
    rw [outerOf_of_parent h1 h2 h3, h4]

theorem placedElsewhere_spec {p : Program} {d : Nat} {dx : Expr} (ps : Option Nat)
    (bs : List (List Nat)) (hx : p.exprs[d]? = some dx) :
    (placedElsewhere p d ps bs).syms = p.syms ∧ (placedElsewhere p d ps bs).types = p.types ∧
    (placedElsewhere p d ps bs).exprs = p.exprs.set d { dx with parentSymbol := ps } := by
  simp [placedElsewhere, hx]

theorem isInnerClass_of_outerOf {p : Program} {d ct : Nat}
    (hd : toDefExpr p (.ofExpr d) = some (some d)) (ht : defSymType p d = some (some ct))
    (hc : toClassType p (some ct) = some (some ct)) :
    isInnerClass p (.ofExpr d) =
      match outerOf p ct with
      | none => none
      | some none => some none
      | some (some _) => some (some ct) := by
  simp only [isInnerClass, hd, ht, hc]

/-- C15: on a definition node `d` whose symbol is a variable or field of
aggregate type `ct`, the detector returns `ct` exactly when the parent symbol
of the definition point of `ct` has an aggregate type, and returns no other
type; the result is the same on every definition node whose symbol has type
`ct`, and the same when `d` is placed anywhere else in the tree. -/
theorem isInnerClass_of_variable (p : Program) (d ct : Nat)
    (hd : toDefExpr p (.ofExpr d) = some (some d))
    (hv : defSymTag p d = some .E_VarSymbol)
    (ht : defSymType p d = some (some ct))
    (hc : toClassType p (some ct) = some (some ct)) :
    (isInnerClass p (.ofExpr d) = some (some ct) ↔
      ∃ cd ps psy o, defPointOf p ct = some cd ∧ parentSymbolOf p cd = some ps ∧
        p.syms[ps]? = some psy ∧ toClassType p psy.type = some (some o)) ∧
    (∀ r, isInnerClass p (.ofExpr d) = some (some r) → r = ct) ∧
    (∀ d2, toDefExpr p (.ofExpr d2) = some (some d2) → defSymType p d2 = some (some ct) →
      isInnerClass p (.ofExpr d2) = isInnerClass p (.ofExpr d)) ∧
    (∀ ps bs, (∀ cd, defPointOf p ct = some cd → defSymTag p cd = some .E_TypeSymbol) →
      isInnerClass (placedElsewhere p d ps bs) (.ofExpr d) = isInnerClass p (.ofExpr d)) := by
  have hform := isInnerClass_of_outerOf hd ht hc
  refine ⟨?_, ?_, ?_, ?_⟩
  · rw [isInnerClass_eq_some_iff]
    constructor
    · rintro ⟨_, _, _, _, o, ho⟩
      obtain ⟨cd, ps, psy, h1, h2, h3, h4⟩ := outerOf_eq_some_iff.1 ho
      exact ⟨cd, ps, psy, o, h1, h2, h3, h4⟩
    · rintro ⟨cd, ps, psy, o, h1, h2, h3, h4⟩
      exact ⟨d, hd, ht, hc, o, outerOf_eq_some_iff.2 ⟨cd, ps, psy, h1, h2, h3, h4⟩⟩
  · intro r hr
    obtain ⟨d0, hd0, ht0, _, _⟩ := (isInnerClass_eq_some_iff p _ r).1 hr
    rw [hd] at hd0
    cases hd0
    rw [ht] at ht0
    cases ht0
    rfl
  · intro d2 hd2 ht2
    rw [hform, isInnerClass_of_outerOf hd2 ht2 hc]
  · intro ps bs htype
    obtain ⟨_, dx, hx, hdef⟩ := toDefExpr_some_some hd
    have hdlt : d < p.exprs.length := (List.getElem?_eq_some_iff.1 hx).1
    obtain ⟨hqs, hqt, hqe⟩ := placedElsewhere_spec ps bs hx
    have hxq : (placedElsewhere p d ps bs).exprs[d]? = some { dx with parentSymbol := ps } := by
      rw [hqe]
      simp [List.getElem?_set, hdlt]
    have hd2 : toDefExpr (placedElsewhere p d ps bs) (.ofExpr d) = some (some d) := by
      simp [toDefExpr, hxq, hdef]
    have ht2 : defSymType (placedElsewhere p d ps bs) d = some (some ct) := by
      have := ht
      simp only [defSymType, hx] at this
      simpa [defSymType, hxq, hqs] using this
    have hc2 : toClassType (placedElsewhere p d ps bs) (some ct) = some (some ct) := by
      simpa [toClassType, hqt] using hc
    rw [isInnerClass_of_outerOf hd2 ht2 hc2, hform]
    have hout : outerOf (placedElsewhere p d ps bs) ct = outerOf p ct := by
      unfold outerOf
      have hdp : defPointOf (placedElsewhere p d ps bs) ct = defPointOf p ct := by
        simp [defPointOf, hqs, hqt]
      rw [hdp]
      cases hcd : defPointOf p ct with
      | none => rfl
      | some cd =>
        have hne : d ≠ cd := by
          intro e
          subst e
          rw [htype d hcd] at hv
          cases hv
        have htc : ∀ t, toClassType (placedElsewhere p d ps bs) t = toClassType p t := by
          intro t
          simp [toClassType, hqt]
        simp only [hqe, hqs, hqt]
        rw [List.getElem?_set_ne hne]
        simp only [htc]
    rw [hout]

/-- C15, on `exRefs`: the fields `x` (node 2) and `y` (node 3) have the type
`B`, defined inside `A`; the detector returns `B` on both, and still does when
`x` is placed at the top level of the Module. -/
theorem isInnerClass_of_variable_witness :
    isInnerClass exRefs (.ofExpr 2) = some (some 1) ∧
    isInnerClass exRefs (.ofExpr 3) = isInnerClass exRefs (.ofExpr 2) ∧
    isInnerClass (placedElsewhere exRefs 2 (some 0) [[0, 2], [1, 3], []]) (.ofExpr 2) =
      isInnerClass exRefs (.ofExpr 2) :=
  ⟨(isInnerClass_of_variable exRefs 2 1 (by decide) (by decide) (by decide) (by decide)).1.2
      ⟨1, 1, ⟨.E_TypeSymbol, some 0, some 0, none⟩, 0, by decide, by decide, by decide, by decide⟩,
    (isInnerClass_of_variable exRefs 2 1 (by decide) (by decide) (by decide) (by decide)).2.2.1
      3 (by decide) (by decide),
    (isInnerClass_of_variable exRefs 2 1 (by decide) (by decide) (by decide) (by decide)).2.2.2
      (some 0) [[0, 2], [1, 3], []] (by decide)⟩

/-! ## Blocks that receive nothing -/

theorem applyMoves_getElem?_untargeted :
    ∀ (mv : List (Nat × Nat)) (bs : List (List Nat)) (i : Nat), (∀ bd ∈ mv, bd.1 ≠ i) →
      (applyMoves bs mv)[i]? = (bs[i]?).map (fun body =>
        body.filter (fun x => decide (x ∉ mv.map (fun bd => bd.2)))) := by
  intro mv
  induction mv with
  | nil => intro bs i _; cases h : bs[i]? <;> simp [applyMoves, h]
  | cons hd rest ih =>
    intro bs i hne
    obtain ⟨b, d⟩ := hd
    have hib : i ≠ b := fun e => hne (b, d) (List.mem_cons_self _ _) e.symm
    simp only [applyMoves]
    rw [ih _ i (fun bd hbd => hne bd (List.mem_cons_of_mem _ hbd)), getElem?_moveBlocks]
    simp only [hib, if_false, Option.map_map]
    congr 1
    funext body
    simp only [Function.comp, List.filter_filter, List.map_cons]
    apply List.filter_congr
    intro x _
    by_cases hx : x = d <;> simp [hx]

theorem mem_applyMoves :
    ∀ (mv : List (Nat × Nat)) (bs : List (List Nat)) (i : Nat) (body : List Nat) (x : Nat),
      (applyMoves bs mv)[i]? = some body → x ∈ body →
      (∃ body0, bs[i]? = some body0 ∧ x ∈ body0) ∨ (i, x) ∈ mv := by
  intro mv
  induction mv with
  | nil => intro bs i body x h hx; exact Or.inl ⟨body, h, hx⟩
  | cons hd rest ih =>
    intro bs i body x h hx
    obtain ⟨b, d⟩ := hd
    simp only [applyMoves] at h
    rcases ih _ i body x h hx with ⟨body1, h1, hx1⟩ | hmem
    · rw [getElem?_moveBlocks] at h1
      by_cases hib : i = b
      · subst hib
        cases hb : bs[i]? with
        | none => simp [hb] at h1
        | some body0 =>
          simp only [hb, if_true, Option.map_some', Option.some.injEq] at h1
          subst h1
          simp only [List.mem_append, List.mem_filter, List.mem_singleton] at hx1
          rcases hx1 with ⟨hx0, _⟩ | rfl
          · exact Or.inl ⟨body0, rfl, hx0⟩
          · exact Or.inr (List.mem_cons_self _ _)
      · cases hb : bs[i]? with
        | none => simp [hb, hib] at h1
        | some body0 =>
          simp only [hb, hib, if_false, Option.map_some', Option.some.injEq] at h1
          subst h1
          exact Or.inl ⟨body0, rfl, (List.mem_filter.1 hx1).1⟩
    · exact Or.inr (List.mem_cons_of_mem _ hmem)

theorem moves_defs (p : Program) :
    ∀ cs : List Nat, (∀ ct ∈ cs, resolvable p ct = true) →
      (cs.filterMap (moveOf p)).map (fun bd => bd.2) = cs.filterMap (defPointOf p) := by
  intro cs
  induction cs with
  | nil => intro _; rfl
  | cons c rest ih =>
    intro h
    obtain ⟨m, b, hm, hb, _⟩ := resolvable_iff.1 (h c (List.mem_cons_self _ _))
    obtain ⟨d, _, hd, _, _⟩ := getModule_some hm
    have hmv : moveOf p c = some (b, d) := by simp [moveOf, hb, hd]
    simp [List.filterMap_cons, hmv, hd, ih (fun ct hct => h ct (List.mem_cons_of_mem _ hct))]

theorem move_target {p : Program} {cs : List Nat} {bd : Nat × Nat}
    (h : bd ∈ cs.filterMap (moveOf p)) :
    ∃ ct m msy, ct ∈ cs ∧ defPointOf p ct = some bd.2 ∧ getModule p ct = some m ∧
      p.syms[m]? = some msy ∧ msy.isModule = true ∧ msy.block = some bd.1 := by
  obtain ⟨ct, hct, hmv⟩ := List.mem_filterMap.1 h
  obtain ⟨b, d⟩ := bd
  obtain ⟨hb, hd⟩ := moveOf_eq_some hmv
  unfold blockOf at hb
  cases hm : getModule p ct with
  | none => simp [hm] at hb
  | some m =>
    simp only [hm] at hb
    obtain ⟨_, _, _, _, hwalk⟩ := getModule_some hm
    obtain ⟨msy, hms, hmod⟩ := getModuleSym_isModule p _ _ _ hwalk
    simp only [hms] at hb
    exact ⟨ct, m, msy, hct, hd, hm, hms, hmod, hb⟩

theorem notModuleBlock_spec {p : Program} {i : Nat} (h : notModuleBlock p i = true)
    {m : Nat} {msy : Symbol} (hm : p.syms[m]? = some msy) (hmod : msy.isModule = true) :
    msy.block ≠ some i := by
  simp only [notModuleBlock, List.all_eq_true] at h
  have := h msy (List.getElem?_mem hm)
  simpa [hmod] using this

/-- C12: on a well-formed tree the pass returns, and a block that is the
top-level block of no Module then holds its original sequence without the
definitions of the collected types: the other statements are kept, in their
order, and nothing is added. -/
theorem flattenClasses_inner_blocks (p : Program) (hwf : wellFormed p = true) :
    ∃ cs q, all_nested_classes p = some cs ∧ flattenClasses p = some q ∧
      ∀ i body, p.blocks[i]? = some body → notModuleBlock p i = true →
        q.blocks[i]? =
          some (body.filter (fun x => decide (x ∉ cs.filterMap (defPointOf p)))) ∧
        ∀ body2, q.blocks[i]? = some body2 → body2.Sublist body := by
  obtain ⟨cs, q, hcs, hq, _, hblocks, _, _⟩ := flattenClasses_run hwf
  refine ⟨cs, q, hcs, hq, ?_⟩
  intro i body hbody hnot
  have hun : ∀ bd ∈ cs.filterMap (moveOf p), bd.1 ≠ i := by
    intro bd hbd e
    obtain ⟨_, m, msy, _, _, _, hms, hmod, hb⟩ := move_target hbd
    exact notModuleBlock_spec hnot hms hmod (e ▸ hb)
  have hres : q.blocks[i]? =
      some (body.filter (fun x => decide (x ∉ cs.filterMap (defPointOf p)))) := by
    rw [hblocks, applyMoves_getElem?_untargeted _ _ _ hun, hbody,
      moves_defs p cs (collected_resolvable hwf hcs)]
    rfl
  refine ⟨hres, ?_⟩
  intro body2 h2
  rw [hres] at h2
  cases h2
  exact List.filter_sublist _

/-- C12, on `exNested`: the body of `A`, `[B, x]`, becomes `[x]`; the body of
`B`, `[C]`, becomes empty. -/
theorem flattenClasses_inner_blocks_witness :
    wellFormed exNested = true ∧ notModuleBlock exNested 1 = true ∧
    ∃ cs q, all_nested_classes exNested = some cs ∧ flattenClasses exNested = some q ∧
      ∀ i body, exNested.blocks[i]? = some body → notModuleBlock exNested i = true →
        q.blocks[i]? =
          some (body.filter (fun x => decide (x ∉ cs.filterMap (defPointOf exNested)))) ∧
        ∀ body2, q.blocks[i]? = some body2 → body2.Sublist body :=
  ⟨by decide, by decide, flattenClasses_inner_blocks exNested (by decide)⟩

/-! ## Several Modules -/

theorem getModule_eq_ownerOf {p : Program} {ct d : Nat} (hd : defPointOf p ct = some d) :
    getModule p ct = ownerOf p d := by
  unfold getModule ownerOf parentSymbolOf
  rw [hd]
  cases hx : p.exprs[d]? with
  | none => simp [getModuleSym, hx]
  | some dx => simp [hx]

theorem ownerOf_of_parent_module {p : Program} {x m : Nat} {msy : Symbol}
    (hp : parentSymbolOf p x = some m) (hm : p.syms[m]? = some msy)
    (hmod : msy.isModule = true) : ownerOf p x = some m := by
  unfold ownerOf
  rw [hp]
  exact getModuleSym_of_isModule p _ m msy hm hmod

theorem Evolves.getElem?_exprs_eq {p q : Program} (e : Evolves p q) {x : Nat}
    (h : parentSymbolOf q x = parentSymbolOf p x) : q.exprs[x]? = p.exprs[x]? := by
  cases hx : p.exprs[x]? with
  | none => exact e.getElem?_exprs_none hx
  | some dx =>
    obtain ⟨dy, hy, h1, h2, _⟩ := e.expr x dx hx
    simp only [parentSymbolOf, hx, hy] at h
    rw [hy]
    cases dx
    cases dy
    simp only at h1 h2 h
    subst h1 h2 h
    rfl

/-- C16: on a well-formed tree whose Modules own their top-level blocks, the
pass returns and (1) the definition of every collected type is then in the
top-level block of the Module that owned it in the original tree, and in no
other block; (2) the top-level block of a Module holds nothing but its original
statements and definitions that this Module owned; (3) for a Module owning no
collected type, its top-level block, every node it owns and every block of
nodes it owns are unchanged. -/
theorem flattenClasses_modules (p : Program) (hwf : wellFormed p = true)
    (ho : topLevelOwned p = true) :
    ∃ cs q, all_nested_classes p = some cs ∧ flattenClasses p = some q ∧
      (∀ ct ∈ cs, ∃ m msy b d, getModule p ct = some m ∧ p.syms[m]? = some msy ∧
        msy.isModule = true ∧ msy.block = some b ∧ defPointOf p ct = some d ∧
        ownerOf p d = some m ∧ OnlyIn q.blocks d b) ∧
      (∀ m msy b body x, p.syms[m]? = some msy → msy.isModule = true → msy.block = some b →
        q.blocks[b]? = some body → x ∈ body →
        (∃ body0, p.blocks[b]? = some body0 ∧ x ∈ body0) ∨
          (ownerOf p x = some m ∧ ∃ ct ∈ cs, defPointOf p ct = some x)) ∧
      (∀ m msy b, p.syms[m]? = some msy → msy.isModule = true → msy.block = some b →
        (∀ ct ∈ cs, getModule p ct ≠ some m) →
        q.blocks[b]? = p.blocks[b]? ∧
        (∀ x, ownerOf p x = some m → q.exprs[x]? = p.exprs[x]?) ∧
        (∀ i, notModuleBlock p i = true →
          (∀ body x, p.blocks[i]? = some body → x ∈ body → ownerOf p x = some m) →
          q.blocks[i]? = p.blocks[i]?)) := by
  obtain ⟨cs, q, hcs, hq, e, hblocks, _, hoth⟩ := flattenClasses_run hwf
  have hres := collected_resolvable hwf hcs
  have hdefs := moves_defs p cs hres
  refine ⟨cs, q, hcs, hq, ?_, ?_, ?_⟩
  · intro ct hct
    obtain ⟨m, b, hm, hb, hlt⟩ := resolvable_iff.1 (hres ct hct)
    obtain ⟨d, dx, hd, _, hwalk⟩ := getModule_some hm
    obtain ⟨msy, hms, hmod⟩ := getModuleSym_isModule p _ _ _ hwalk
    have hblk : msy.block = some b := by simpa [blockOf, hm, hms] using hb
    refine ⟨m, msy, b, d, hm, hms, hmod, hblk, hd, ?_, ?_⟩
    · rw [← getModule_eq_ownerOf hd]
      exact hm
    · rw [hblocks]
      apply applyMoves_places _ _ _ hlt (moves_consistent p cs hb hd)
      exact List.mem_filterMap.2 ⟨ct, hct, by simp [moveOf, hb, hd]⟩
  · intro m msy b body x hms hmod hb hbody hx
    rw [hblocks] at hbody
    rcases mem_applyMoves _ _ _ _ _ hbody hx with h0 | hmv
    · exact Or.inl h0
    · right
      obtain ⟨ct, m2, msy2, hct, hd, hm2, hms2, hmod2, hb2⟩ := move_target hmv
      simp only at hd hb2
      have hmm : m2 = m := (topLevelOwned_spec ho hms hmod hb).2 m2 msy2 hms2 hmod2 hb2
      subst hmm
      exact ⟨(getModule_eq_ownerOf hd).symm.trans hm2, ct, hct, hd⟩
  · intro m msy b hms hmod hb hnone
    have hnotdef : ∀ x, ownerOf p x = some m → ∀ ct ∈ cs, defPointOf p ct ≠ some x := by
      intro x hown ct hct hd
      exact hnone ct hct ((getModule_eq_ownerOf hd).trans hown)
    have hkeep : ∀ body : List Nat, (∀ x ∈ body, ownerOf p x = some m) →
        body.filter (fun x => decide (x ∉ (cs.filterMap (moveOf p)).map (fun bd => bd.2))) =
          body := by
      intro body hall
      apply filter_not_mem_self
      intro x hx hmem
      rw [hdefs] at hmem
      obtain ⟨ct, hct, hd⟩ := List.mem_filterMap.1 hmem
      exact hnotdef x (hall x hx) ct hct hd
    refine ⟨?_, ?_, ?_⟩
    · have hun : ∀ bd ∈ cs.filterMap (moveOf p), bd.1 ≠ b := by
        intro bd hbd e2
        obtain ⟨ct, m2, msy2, hct, _, hm2, hms2, hmod2, hb2⟩ := move_target hbd
        rw [e2] at hb2
        have hmm : m2 = m := (topLevelOwned_spec ho hms hmod hb).2 m2 msy2 hms2 hmod2 hb2
        subst hmm
        exact hnone ct hct hm2
      rw [hblocks, applyMoves_getElem?_untargeted _ _ _ hun]
      cases hbody : p.blocks[b]? with
      | none => rfl
      | some body =>
        simp only [Option.map_some']
        rw [hkeep body (fun x hx => ownerOf_of_parent_module
          ((topLevelOwned_spec ho hms hmod hb).1 body hbody x hx) hms hmod)]
    · intro x hown
      exact e.getElem?_exprs_eq (hoth x (hnotdef x hown))
    · intro i hnot hall
      have hun : ∀ bd ∈ cs.filterMap (moveOf p), bd.1 ≠ i := by
        intro bd hbd e2
        obtain ⟨_, m2, msy2, _, _, _, hms2, hmod2, hb2⟩ := move_target hbd
        exact notModuleBlock_spec hnot hms2 hmod2 (e2 ▸ hb2)
      rw [hblocks, applyMoves_getElem?_untargeted _ _ _ hun]
      cases hbody : p.blocks[i]? with
      | none => rfl
      | some body =>
        simp only [Option.map_some']
        rw [hkeep body (fun x hx => hall body x hbody hx)]

/-- C16, on `exModules`: `B` goes to `M1`, `Q` to `M2`, and `M3`, which has no
nested type, is unchanged. -/
theorem flattenClasses_modules_witness :
    wellFormed exModules = true ∧ topLevelOwned exModules = true ∧
    (flattenClasses exModules).map (fun q => q.blocks) =
      some [[0, 1], [2, 3], [4], [], [], []] ∧
    ∃ cs q, all_nested_classes exModules = some cs ∧ flattenClasses exModules = some q ∧
      (∀ ct ∈ cs, ∃ m msy b d, getModule exModules ct = some m ∧
        exModules.syms[m]? = some msy ∧
        msy.isModule = true ∧ msy.block = some b ∧ defPointOf exModules ct = some d ∧
        ownerOf exModules d = some m ∧ OnlyIn q.blocks d b) ∧
      (∀ m msy b body x, exModules.syms[m]? = some msy → msy.isModule = true →
        msy.block = some b → q.blocks[b]? = some body → x ∈ body →
        (∃ body0, exModules.blocks[b]? = some body0 ∧ x ∈ body0) ∨
          (ownerOf exModules x = some m ∧ ∃ ct ∈ cs, defPointOf exModules ct = some x)) ∧
      (∀ m msy b, exModules.syms[m]? = some msy → msy.isModule = true → msy.block = some b →
        (∀ ct ∈ cs, getModule exModules ct ≠ some m) →
        q.blocks[b]? = exModules.blocks[b]? ∧
        (∀ x, ownerOf exModules x = some m → q.exprs[x]? = exModules.exprs[x]?) ∧
        (∀ i, notModuleBlock exModules i = true →
          (∀ body x, exModules.blocks[i]? = some body → x ∈ body →
            ownerOf exModules x = some m) →
          q.blocks[i]? = exModules.blocks[i]?)) :=
  ⟨by decide, by decide, by decide, flattenClasses_modules exModules (by decide) (by decide)⟩

/-! ## The walk to the Module terminates -/

theorem getModuleSym_none_of_le (p : Program) {n j : Nat} {s : Option Nat}
    (h : getModuleSym p n s = none) (hj : j ≤ n) : getModuleSym p j s = none := by
  cases hr : getModuleSym p j s with
  | none => rfl
  | some m =>
    have := getModuleSym_add p j (n - j) s m hr
    rw [Nat.add_sub_cancel' hj, h] at this
    cases this

theorem exists_minFuel (p : Program) (s : Option Nat) (m : Nat) :
    ∀ n, getModuleSym p n s = some m → ∃ k, k ≤ n ∧ MinFuel p k s m := by
  intro n
  induction n with
  | zero => intro h; simp [getModuleSym] at h
  | succ n ih =>
    intro h
    cases hr : getModuleSym p n s with
    | none =>
      refine ⟨n + 1, Nat.le_refl _, h, ?_⟩
      intro j hj
      exact getModuleSym_none_of_le p hr (Nat.lt_succ_iff.1 hj)
    | some m2 =>
      have hmm := getModuleSym_unique p _ _ _ _ _ hr h
      subst hmm
      obtain ⟨k, hk, hmin⟩ := ih hr
      exact ⟨k, Nat.le_succ_of_le hk, hmin⟩

theorem minFuel_unique (p : Program) {a b : Nat} {s : Option Nat} {m1 m2 : Nat}
    (h1 : MinFuel p a s m1) (h2 : MinFuel p b s m2) : a = b := by
  rcases Nat.lt_trichotomy a b with h | h | h
  · have := h2.2 a h
    rw [h1.1] at this
    cases this
  · exact h
  · have := h1.2 b h
    rw [h2.1] at this
    cases this

theorem minFuel_valid (p : Program) {k s m : Nat} (h : MinFuel p k (some s) m) :
    s < p.syms.length := by
  obtain ⟨h1, _⟩ := h
  cases k with
  | zero => simp [getModuleSym] at h1
  | succ k =>
    rw [getModuleSym] at h1
    cases hs : p.syms[s]? with
    | none => simp [hs] at h1
    | some sy => exact (List.getElem?_eq_some_iff.1 hs).1

theorem minFuel_step (p : Program) {k s m : Nat} (h : MinFuel p (k + 2) (some s) m) :
    ∃ s2, MinFuel p (k + 1) (some s2) m := by
  obtain ⟨h1, h2⟩ := h
  have h3 := h2 (k + 1) (Nat.lt_succ_self _)
  rw [getModuleSym] at h1 h3
  cases hs : p.syms[s]? with
  | none => simp [hs] at h1
  | some sy =>
    simp only [hs] at h1 h3
    by_cases hmod : sy.isModule = true
    · simp [hmod] at h3
    · simp only [hmod, if_false] at h1 h3
      cases hd : sy.defPoint with
      | none => simp [hd] at h1
      | some d =>
        simp only [hd] at h1 h3
        cases hx : p.exprs[d]? with
        | none => simp [hx] at h1
        | some dx =>
          simp only [hx] at h1 h3
          cases hp : dx.parentSymbol with
          | none => simp [hp, getModuleSym] at h1
          | some s2 =>
            rw [hp] at h1 h3
            refine ⟨s2, h1, ?_⟩
            intro j hj
            exact getModuleSym_none_of_le p h3 (Nat.lt_succ_iff.1 hj)

theorem minFuel_chain (p : Program) :
    ∀ (k s m : Nat), MinFuel p (k + 1) (some s) m →
      ∃ l : List Nat, l.length = k + 1 ∧ l.Nodup ∧ (∀ x ∈ l, x < p.syms.length) ∧
        ∀ x ∈ l, ∃ j m2, j ≤ k + 1 ∧ MinFuel p j (some x) m2 := by
  intro k
  induction k with
  | zero =>
    intro s m h
    refine ⟨[s], rfl, List.nodup_singleton _, ?_, ?_⟩
    · intro x hx
      rw [List.mem_singleton.1 hx]
      exact minFuel_valid p h
    · intro x hx
      rw [List.mem_singleton.1 hx]
      exact ⟨1, m, Nat.le_refl _, h⟩
  | succ k ih =>
    intro s m h
    obtain ⟨s2, h2⟩ := minFuel_step p h
    obtain ⟨l, hlen, hnd, hval, hmin⟩ := ih s2 m h2
    refine ⟨s :: l, by simp [hlen], ?_, ?_, ?_⟩
    · refine List.nodup_cons.2 ⟨?_, hnd⟩
      intro hmem
      obtain ⟨j, m2, hj, hjm⟩ := hmin s hmem
      have := minFuel_unique p hjm h
      omega
    · intro x hx
      rcases List.mem_cons.1 hx with rfl | hx
      · exact minFuel_valid p h
      · exact hval x hx
    · intro x hx
      rcases List.mem_cons.1 hx with rfl | hx
      · exact ⟨k + 2, m, Nat.le_refl _, h⟩
      · obtain ⟨j, m2, hj, hjm⟩ := hmin x hx
        exact ⟨j, m2, Nat.le_succ_of_le hj, hjm⟩

theorem length_le_of_nodup_lt {l : List Nat} {n : Nat} (hnd : l.Nodup)
    (h : ∀ x ∈ l, x < n) : l.length ≤ n := by
  rw [← List.toFinset_card_of_nodup hnd, ← Finset.card_range n]
  apply Finset.card_le_card
  intro x hx
  exact Finset.mem_range.2 (h x (List.mem_toFinset.1 hx))

/-- A walk that returns a Module does so within `syms.length` steps: the fuel of
`getModule` is enough. -/
theorem getModuleSym_bounded (p : Program) (n : Nat) (s : Option Nat) (m : Nat)
    (h : getModuleSym p n s = some m) : getModuleSym p (p.syms.length + 1) s = some m := by
  obtain ⟨k, _, hmin⟩ := exists_minFuel p s m n h
  cases s with
  | none =>
    cases n with
    | zero => simp [getModuleSym] at h
    | succ n => simp [getModuleSym] at h
  | some s0 =>
    cases k with
    | zero =>
      have := hmin.1
      simp [getModuleSym] at this
    | succ k =>
      obtain ⟨l, hlen, hnd, hval, _⟩ := minFuel_chain p k s0 m hmin
      have hle : k + 1 ≤ p.syms.length := hlen ▸ length_le_of_nodup_lt hnd hval
      have := getModuleSym_add p (k + 1) (p.syms.length + 1 - (k + 1)) (some s0) m hmin.1
      rwa [Nat.add_sub_cancel' (Nat.le_succ_of_le hle)] at this

theorem allReach_iff (p : Program) : allReach p = true ↔ AllReach p := by
  simp only [allReach, List.all_eq_true, List.mem_range, Option.isSome_iff_exists]
  constructor
  · intro h s sy hs
    obtain ⟨m, hm⟩ := h s (List.getElem?_eq_some_iff.1 hs).1
    exact ⟨_, m, hm⟩
  · intro h s hs
    obtain ⟨n, m, hm⟩ := h s p.syms[s] (List.getElem?_eq_getElem hs)
    exact ⟨m, getModuleSym_bounded p n _ m hm⟩

theorem moveToModule_evolves {q q2 : Program} {ct : Nat} (h : moveToModule q ct = some q2) :
    Evolves q q2 := by
  obtain ⟨m, d, b, dx, hm, hd, hb, hlt, _, _⟩ := moveToModule_eq_some h
  obtain ⟨q3, h3, e, _⟩ := (Evolves.refl q).step hm hb hlt hd
  rw [h] at h3
  cases h3
  exact e

theorem Evolves.allReach {p q : Program} (e : Evolves p q) (h : AllReach p) : AllReach q := by
  intro s sy hs
  rw [e.syms] at hs
  obtain ⟨n, m, hm⟩ := h s sy hs
  exact ⟨n, m, e.getModuleSym_eq _ _ _ hm⟩

theorem Evolves.hasParent {p q : Program} (e : Evolves p q) {ct : Nat} (h : HasParent p ct) :
    HasParent q ct := by
  obtain ⟨d, ps, psy, hd, hp, hs⟩ := h
  rcases e.parent hp with hsame | ⟨m, msy, hm, hms, _⟩
  · exact ⟨d, ps, psy, (e.defPointOf_eq ct).trans hd, hsame, by rw [e.syms]; exact hs⟩
  · exact ⟨d, m, msy, (e.defPointOf_eq ct).trans hd, hm, by rw [e.syms]; exact hms⟩

theorem getModule_of_allReach {q : Program} (hr : AllReach q) {ct : Nat} (hp : HasParent q ct) :
    ∃ m msy, getModule q ct = some m ∧ q.syms[m]? = some msy ∧ msy.isModule = true := by
  obtain ⟨d, ps, psy, hd, hpar, hs⟩ := hp
  obtain ⟨n, m, hm⟩ := hr ps psy hs
  have hb := getModuleSym_bounded q n _ m hm
  obtain ⟨msy, hms, hmod⟩ := getModuleSym_isModule q _ _ _ hb
  refine ⟨m, msy, ?_, hms, hmod⟩
  rw [getModule_eq_ownerOf hd]
  unfold ownerOf
  rw [hpar]
  exact hb

theorem relocateAll_allReach {cs : List Nat} :
    ∀ (pre : List Nat) (q0 q : Program), relocateAll q0 pre = some q →
      AllReach q0 → (∀ ct ∈ cs, HasParent q0 ct) →
      AllReach q ∧ ∀ ct ∈ cs, HasParent q ct := by
  intro pre
  induction pre with
  | nil =>
    intro q0 q h hr hp
    simp only [relocateAll, Option.some.injEq] at h
    subst h
    exact ⟨hr, hp⟩
  | cons c rest ih =>
    intro q0 q h hr hp
    unfold relocateAll at h
    split at h
    · simp at h
    · rename_i q1 h1
      have e := moveToModule_evolves h1
      exact ih q1 q h (e.allReach hr) (fun ct hct => e.hasParent (hp ct hct))

/-- C13: the walk of `getModule` returns within its bound whenever the chain
reaches a Module at all.  When every symbol's parent chain reaches a Module,
this still holds after each step of the relocation loop, and in the state in
which a collected type is about to be relocated (the types collected before it
having been relocated) `getModule` returns a Module for it. -/
theorem getModule_terminates (p : Program) (cs : List Nat) (hreach : AllReach p)
    (hcs : all_nested_classes p = some cs) :
    (∀ q n s m, getModuleSym q n s = some m →
      getModuleSym q (q.syms.length + 1) s = some m) ∧
    (∀ q ct q2, AllReach q → moveToModule q ct = some q2 → AllReach q2) ∧
    (∀ pre ct rest q, cs = pre ++ ct :: rest → relocateAll p pre = some q →
      AllReach q ∧
      ∃ m msy, getModule q ct = some m ∧ q.syms[m]? = some msy ∧ msy.isModule = true) := by
  refine ⟨getModuleSym_bounded, ?_, ?_⟩
  · intro q ct q2 hr h
    exact (moveToModule_evolves h).allReach hr
  · intro pre ct rest q hsplit hrel
    have hpar : ∀ c ∈ cs, HasParent p c := by
      intro c hc
      obtain ⟨_, o, ho⟩ := collected_class hcs hc
      obtain ⟨d, ps, psy, hd, hp, hs, _⟩ := outerOf_some ho
      exact ⟨d, ps, psy, hd, hp, hs⟩
    obtain ⟨hr, hp⟩ := relocateAll_allReach pre p q hrel hreach hpar
    refine ⟨hr, getModule_of_allReach hr (hp ct ?_)⟩
    rw [hsplit]
    simp

/-- C13, on `exNested`: when `C` is about to be relocated, its outer type `B`
has been moved to the Module, and `getModule` returns the Module `M` for `C`. -/
theorem getModule_terminates_witness :
    allReach exNested = true ∧ all_nested_classes exNested = some [1, 2] ∧
    ∃ q, relocateAll exNested [1] = some q ∧ AllReach q ∧
      ∃ m msy, getModule q 2 = some m ∧ q.syms[m]? = some msy ∧ msy.isModule = true := by
  have hsome : (relocateAll exNested [1]).isSome = true := by decide
  obtain ⟨q, hq⟩ := Option.isSome_iff_exists.1 hsome
  exact ⟨by decide, by decide, q, hq,
    (getModule_terminates exNested [1, 2] ((allReach_iff exNested).1 (by decide))
      (by decide)).2.2 [1] 2 [] q rfl hq⟩

end FlattenClasses
